import Mathlib

/-! # BinarySwitchCalculator: a shallow embedding and its properties

The development follows `BinarySwitchCalculator.cpp`.

* `std::size_t` values are natural numbers, every operation reduced modulo `2^64`.
* `float` values are rationals. The worker and the comparator are given twice: in exact
  arithmetic, where every operation of the source is the corresponding operation on `ℚ`
  (division is the field division), and in rounded arithmetic, where a rounding function
  is applied after every operation (`roundToFloat` for the `float` of the source).
* `long long` counters are integers; signed overflow, undefined in C++, is not modelled.
* `std::vector` is `List`.
-/

namespace BinarySwitchCalculator

/-! ## Data model -/

/-- Number of values of `std::size_t` (64-bit target). -/
def sizeModulus : Nat := 18446744073709551616

/-- Source `struct ThreadIndexes`. -/
structure ThreadIndexes where
  startIndex : Nat
  endIndex : Nat
  deriving DecidableEq, Repr

/-! ## Work partitioning (`main`, construction of `threadIndexes`) -/

/-- One iteration of the `for (i = 0; i < workerThreads; i++)` loop of `main`:
`push_back(ThreadIndexes{0, 0})`, then `startIndex = i * blockSize`, `+= 1` when `i > 0`,
and `endIndex = (i + 1) * blockSize`. -/
def pushThreadIndexes (blockSize : Nat) (acc : List ThreadIndexes) (i : Nat) :
    List ThreadIndexes :=
  let start0 := (i * blockSize) % sizeModulus
  let start := if i > 0 then (start0 + 1) % sizeModulus else start0
  acc ++ [{ startIndex := start, endIndex := ((i + 1) * blockSize) % sizeModulus }]

/-- The statement `threadIndexes[threadIndexes.size() - 1].endIndex += (remainder - 1);`. -/
def bumpLast (remainder : Nat) (t : ThreadIndexes) : ThreadIndexes :=
  { t with endIndex :=
      (t.endIndex + (remainder + sizeModulus - 1) % sizeModulus) % sizeModulus }

/-- The vector `threadIndexes` built in `main` for a value set of length `N` and
`W = workerThreads` workers (`W > 0` is checked earlier in `main`). -/
def threadIndexes (N W : Nat) : List ThreadIndexes :=
  let blockSize0 := N / W
  let remainder0 := N % W
  let blockSize := (blockSize0 + remainder0 / W) % sizeModulus
  let remainder := remainder0 % W
  List.modifyLast (bumpLast remainder)
    ((List.range W).foldl (pushThreadIndexes blockSize) [])

/-- The indices visited by the outer loop
`for (i = startIndex; i <= endIndex; i++)` of the worker: none when
`startIndex > endIndex`. -/
def rangeIndices (t : ThreadIndexes) : List Nat :=
  List.range' t.startIndex (t.endIndex + 1 - t.startIndex)

/-- The loop condition view of a range: `x` is visited iff
`startIndex <= x` and `x <= endIndex`. -/
def covers (x : Nat) (t : ThreadIndexes) : Bool :=
  decide (t.startIndex ≤ x) && decide (x ≤ t.endIndex)

/-! ## Physics parameters and results -/

/-- Source `struct PhysicsParams`. -/
structure PhysicsParams where
  targetOutputs : List ℚ
  feedbackVoltage : ℚ
  use5PercentResistors : Bool
  use1PercentResistors : Bool
  use01PercentResistors : Bool
  allowableError : ℚ
  minimumCurrent : ℚ
  maximumCurrent : ℚ

/-- Source `struct Result`. -/
structure Result where
  R : ℚ
  R1 : ℚ
  R2 : ℚ
  R3 : ℚ
  R4 : ℚ
  currentState00 : ℚ
  currentState01 : ℚ
  currentState10 : ℚ
  currentState11 : ℚ
  voltageError00 : ℚ
  voltageError01 : ℚ
  voltageError10 : ℚ
  voltageError11 : ℚ
  deriving DecidableEq

/-- The initial value `Result tempResult{0, 0, 0, 0, 0, 0, 0, 0, 0};` of the worker:
nine explicit zeros, the remaining four members value-initialised. -/
def zeroResult : Result :=
  { R := 0, R1 := 0, R2 := 0, R3 := 0, R4 := 0,
    currentState00 := 0, currentState01 := 0, currentState10 := 0, currentState11 := 0,
    voltageError00 := 0, voltageError01 := 0, voltageError10 := 0, voltageError11 := 0 }

/-- The four ON-ON switch states. -/
inductive SwitchState where
  | s00
  | s01
  | s10
  | s11
  deriving DecidableEq, Repr, Fintype

/-- Element `targetOutputs[k]` read by the worker for a state: `[0]` for 00, `[1]` for 01,
`[2]` for 10, `[3]` for 11. -/
def target (p : PhysicsParams) : SwitchState → ℚ
  | .s00 => p.targetOutputs.getD 0 0
  | .s01 => p.targetOutputs.getD 1 0
  | .s10 => p.targetOutputs.getD 2 0
  | .s11 => p.targetOutputs.getD 3 0

/-- The right-hand sides of the four assignments to `tempResult.currentStateXX`
(source lines 146, 149, 152, 155), as expressions over the values held in
`tempResult.R`, `tempResult.R1`, ..., `tempResult.R4`. -/
def codeCurrent (p : PhysicsParams) (R R1 R2 R3 R4 : ℚ) : SwitchState → ℚ
  | .s00 => p.feedbackVoltage / (R + 1 / (1 / R1 + 1 / R3))
  | .s01 => p.feedbackVoltage / (R + 1 / (1 / R1 + 1 / R4))
  | .s10 => p.feedbackVoltage / (R + 1 / (1 / R2 + 1 / R3))
  | .s11 => p.feedbackVoltage / (R + 1 / (1 / R2 + 1 / R4))

/-- The right-hand sides of the first assignment to each `tempResult.voltageErrorXX`
(source lines 159, 163, 167, 171): the output voltage of the state. -/
def codeVoltage (p : PhysicsParams) (R R1 R2 R3 R4 : ℚ) : SwitchState → ℚ
  | .s00 => p.feedbackVoltage * (1 + 1 / (R * (1 / R1 + 1 / R3)))
  | .s01 => p.feedbackVoltage * (1 + 1 / (R * (1 / R1 + 1 / R4)))
  | .s10 => p.feedbackVoltage * (1 + 1 / (R * (1 / R2 + 1 / R3)))
  | .s11 => p.feedbackVoltage * (1 + 1 / (R * (1 / R2 + 1 / R4)))

/-- The second assignment to each `tempResult.voltageErrorXX` (source lines 160, 164,
168, 172): `abs(targetOutputs[k] - voltage) / targetOutputs[k]`. -/
def codeVoltageError (p : PhysicsParams) (R R1 R2 R3 R4 : ℚ) (s : SwitchState) : ℚ :=
  |target p s - codeVoltage p R R1 R2 R3 R4 s| / target p s

/-- The test `current < minimumCurrent || current > maximumCurrent` that leads to
`continue`. -/
def currentRejected (p : PhysicsParams) (c : ℚ) : Bool :=
  decide (c < p.minimumCurrent) || decide (c > p.maximumCurrent)

/-- The test `voltageError > allowableError` that leads to `continue`. -/
def errorRejected (p : PhysicsParams) (e : ℚ) : Bool :=
  decide (e > p.allowableError)

/-- The per-tuple part of the loop body of `calculateResistorCombinations` after the
iteration counter (source lines 138 to 176). The argument `t0` is the reused `tempResult`
as left by the previous iteration. The result is the new `tempResult` and whether
`localResults.push_back(tempResult)` was reached; every `continue` returns the record
as updated so far. -/
def evaluateTuple (p : PhysicsParams) (R R1 R2 R3 R4 : ℚ) (t0 : Result) : Result × Bool :=
  let t1 : Result := { t0 with R := R, R1 := R1, R2 := R2, R3 := R3, R4 := R4 }
  let t2 : Result := { t1 with currentState00 := codeCurrent p t1.R t1.R1 t1.R2 t1.R3 t1.R4 .s00 }
  if currentRejected p t2.currentState00 then (t2, false) else
  let t3 : Result := { t2 with currentState01 := codeCurrent p t2.R t2.R1 t2.R2 t2.R3 t2.R4 .s01 }
  if currentRejected p t3.currentState01 then (t3, false) else
  let t4 : Result := { t3 with currentState10 := codeCurrent p t3.R t3.R1 t3.R2 t3.R3 t3.R4 .s10 }
  if currentRejected p t4.currentState10 then (t4, false) else
  let t5 : Result := { t4 with currentState11 := codeCurrent p t4.R t4.R1 t4.R2 t4.R3 t4.R4 .s11 }
  if currentRejected p t5.currentState11 then (t5, false) else
  let t6 : Result := { t5 with voltageError00 := codeVoltageError p t5.R t5.R1 t5.R2 t5.R3 t5.R4 .s00 }
  if errorRejected p t6.voltageError00 then (t6, false) else
  let t7 : Result := { t6 with voltageError01 := codeVoltageError p t6.R t6.R1 t6.R2 t6.R3 t6.R4 .s01 }
  if errorRejected p t7.voltageError01 then (t7, false) else
  let t8 : Result := { t7 with voltageError10 := codeVoltageError p t7.R t7.R1 t7.R2 t7.R3 t7.R4 .s10 }
  if errorRejected p t8.voltageError10 then (t8, false) else
  let t9 : Result := { t8 with voltageError11 := codeVoltageError p t8.R t8.R1 t8.R2 t8.R3 t8.R4 .s11 }
  if errorRejected p t9.voltageError11 then (t9, false) else
  (t9, true)

/-! ## The shared store `ThreadSafeResults` -/

/-- Source `class ThreadSafeResults` without its mutex: every member function holds the
mutex for its whole body, so each one is a single atomic transition of this state. -/
structure ThreadSafeResults where
  results : List Result
  rollingResultsCount : Int
  deriving DecidableEq

namespace ThreadSafeResults

/-- The object `ThreadSafeResults sharedResults;` of `main`. The class declares no
constructor and no default member initialiser, so `results` is the empty vector and
`rollingResultsCount` is left with whatever value `indeterminate` its storage held. -/
def defaultConstructed (indeterminate : Int) : ThreadSafeResults :=
  { results := [], rollingResultsCount := indeterminate }

/-- `AppendResults`: return at once for an empty batch, otherwise `resize` by the batch
length and `memcpy` the batch into the new tail. -/
def AppendResults (s : ThreadSafeResults) (resultsToAppend : List Result) :
    ThreadSafeResults :=
  if resultsToAppend.length = 0 then s
  else { s with results := s.results ++ resultsToAppend }

/-- `TransferResults`: `resultsToTransfer = results; results.clear();`. The first component
is the new value of the output vector. -/
def TransferResults (s : ThreadSafeResults) : List Result × ThreadSafeResults :=
  (s.results, { s with results := [] })

/-- `UpdateRollingResultsCount`: `rollingResultsCount += addThisManyResults`. -/
def UpdateRollingResultsCount (s : ThreadSafeResults) (addThisManyResults : Int) :
    ThreadSafeResults :=
  { s with rollingResultsCount := s.rollingResultsCount + addThisManyResults }

/-- `GetRollingResultsCount`. -/
def GetRollingResultsCount (s : ThreadSafeResults) : Int :=
  s.rollingResultsCount

end ThreadSafeResults

/-! ## The worker `calculateResistorCombinations` -/

/-- The batch size `static_cast<long long>(pow(10, 7))`. -/
def batchSize : Int := 10000000

/-- The values of the five loop variables `i, j, k, l, m` at one execution of the loop
body. -/
structure IndexTuple where
  i : Nat
  j : Nat
  k : Nat
  l : Nat
  m : Nat
  deriving DecidableEq, Repr

/-- The worker's local variables. `updateCalls` is a history variable that is not in the
source: it records the argument of every call to `UpdateRollingResultsCount` made by this
worker so far, oldest first. -/
structure WorkerLocal where
  localResults : List Result
  tempResult : Result
  iterations : Int
  updateCalls : List Int

/-- The worker's local variables on entry to the loop nest. -/
def WorkerLocal.initial : WorkerLocal :=
  { localResults := [], tempResult := zeroResult, iterations := 0, updateCalls := [] }

/-- One execution of the body of the innermost loop (source lines 131 to 176) for the
values `R, R1, R2, R3, R4` read from `resistorValues`, acting on the worker's locals and
on the shared store. -/
def tupleStep (p : PhysicsParams) (R R1 R2 R3 R4 : ℚ)
    (w : WorkerLocal × ThreadSafeResults) : WorkerLocal × ThreadSafeResults :=
  let iterations := w.1.iterations + 1
  let hit : Bool := decide (Int.tmod iterations batchSize = 0)
  let shared := if hit then w.2.UpdateRollingResultsCount batchSize else w.2
  let calls := if hit then w.1.updateCalls ++ [batchSize] else w.1.updateCalls
  let e := evaluateTuple p R R1 R2 R3 R4 w.1.tempResult
  ({ localResults := if e.2 then w.1.localResults ++ [e.1] else w.1.localResults,
     tempResult := e.1,
     iterations := iterations,
     updateCalls := calls }, shared)

/-- The loop body at the loop variables `x`: the five values are
`resistorValues[i]`, `resistorValues[j]`, `resistorValues[k]`, `resistorValues[l]` and
`resistorValues[m]`. -/
def tupleBody (p : PhysicsParams) (resistorValues : List ℚ) (x : IndexTuple)
    (w : WorkerLocal × ThreadSafeResults) : WorkerLocal × ThreadSafeResults :=
  tupleStep p (resistorValues.getD x.i 0) (resistorValues.getD x.j 0)
    (resistorValues.getD x.k 0) (resistorValues.getD x.l 0) (resistorValues.getD x.m 0) w

/-- The five nested `for` loops of the worker, from the state `w` on. -/
def workerLoops (p : PhysicsParams) (t : ThreadIndexes) (resistorValues : List ℚ)
    (w : WorkerLocal × ThreadSafeResults) : WorkerLocal × ThreadSafeResults :=
  (rangeIndices t).foldl (fun w i =>
    (List.range resistorValues.length).foldl (fun w j =>
      (List.range resistorValues.length).foldl (fun w k =>
        (List.range resistorValues.length).foldl (fun w l =>
          (List.range resistorValues.length).foldl (fun w m =>
            tupleBody p resistorValues ⟨i, j, k, l, m⟩ w) w) w) w) w) w

/-- The value of `max_size()` for `std::vector<Result>` on the 64-bit target: the largest
`size_t` divided by `sizeof(Result)`, the size of thirteen 4-byte `float` members. -/
def vectorMaxSize : Nat := 18446744073709551615 / 52

/-- Whether the call `localResults.reserve(endIndex - startIndex + 1)` at the start of the
worker throws `std::length_error`: the argument, computed in `size_t`, exceeds
`max_size()`. -/
def reserveFails (t : ThreadIndexes) : Bool :=
  decide (vectorMaxSize < (t.endIndex + sizeModulus - t.startIndex + 1) % sizeModulus)

/-- The worker has no defined result when its `reserve` call throws, when its outer loop
does not end (`endIndex` is the largest `size_t`, so `i <= endIndex` always holds) or when
it reads `resistorValues[i]` past the end of a non-empty value set. -/
def workerUndefined (t : ThreadIndexes) (resistorValues : List ℚ) : Bool :=
  reserveFails t ||
    (decide (t.startIndex ≤ t.endIndex) &&
      (decide (t.endIndex + 1 = sizeModulus) ||
        (decide (0 < resistorValues.length) && decide (resistorValues.length ≤ t.endIndex))))

/-- The worker up to the end of its loop nest: `none` when it has no defined result. -/
def workerRun (p : PhysicsParams) (t : ThreadIndexes) (resistorValues : List ℚ)
    (sharedResults : ThreadSafeResults) : Option (WorkerLocal × ThreadSafeResults) :=
  if workerUndefined t resistorValues then none
  else some (workerLoops p t resistorValues (WorkerLocal.initial, sharedResults))

/-- Source `calculateResistorCombinations`: the loop nest, then
`sharedResults.AppendResults(localResults)`. The result is the shared store on return. -/
def calculateResistorCombinations (p : PhysicsParams) (t : ThreadIndexes)
    (resistorValues : List ℚ) (sharedResults : ThreadSafeResults) :
    Option ThreadSafeResults :=
  (workerRun p t resistorValues sharedResults).map fun w => w.2.AppendResults w.1.localResults

/-- The index tuples in the order in which the loop nest of a worker visits them. -/
def loopTuples (t : ThreadIndexes) (N : Nat) : List IndexTuple :=
  (rangeIndices t).flatMap fun i =>
    (List.range N).flatMap fun j =>
      (List.range N).flatMap fun k =>
        (List.range N).flatMap fun l =>
          (List.range N).map fun m => ⟨i, j, k, l, m⟩

/-- One worker run after the other, each to completion, in the order of `order`. -/
def runWorkers (p : PhysicsParams) (resistorValues : List ℚ) :
    List ThreadIndexes → ThreadSafeResults → Option ThreadSafeResults
  | [], s => some s
  | t :: rest, s =>
    match calculateResistorCombinations p t resistorValues s with
    | none => none
    | some s1 => runWorkers p resistorValues rest s1

/-- The vector `finalResults` of `main` after `sharedResults.TransferResults(finalResults)`,
for workers that complete in the order `order`. -/
def drainedResults (p : PhysicsParams) (resistorValues : List ℚ)
    (order : List ThreadIndexes) (sharedResults : ThreadSafeResults) : Option (List Result) :=
  (runWorkers p resistorValues order sharedResults).map fun s => s.TransferResults.1

/-- The controlling inputs `mainInputs` set at the start of `main`, each `float` literal
taken at its decimal value. -/
def mainInputs : PhysicsParams :=
  { targetOutputs := [33 / 10, 5, 12, 24],
    feedbackVoltage := 5 / 2,
    use5PercentResistors := true,
    use1PercentResistors := true,
    use01PercentResistors := true,
    allowableError := 18 / 100,
    minimumCurrent := 1 / 10000000,
    maximumCurrent := 1 / 10 }

/-! ## Ranking (`compareResultsByVoltageError` and the call of `std::sort` in `main`) -/

/-- The value `aAverage` (and `bAverage`) computed by `compareResultsByVoltageError`:
the sum of the four voltage errors divided by `4.0f`. -/
def meanVoltageError (a : Result) : ℚ :=
  (a.voltageError00 + a.voltageError01 + a.voltageError10 + a.voltageError11) / 4

/-- Source `compareResultsByVoltageError`: `return aAverage < bAverage;`. -/
def compareResultsByVoltageError (a b : Result) : Bool :=
  decide (meanVoltageError a < meanVoltageError b)

/-- The call `std::sort(first, last, comp)`. The C++ standard fixes its result up to the
order of elements that `comp` does not separate; the model is the insertion sort that
places an element before the first later one that does not compare less than it. -/
def stdSort (comp : Result → Result → Bool) (l : List Result) : List Result :=
  l.insertionSort (fun a b => comp b a = false)

/-- The vector `finalResults` of `main` after the call of `std::sort`. -/
def sortedResults (drained : List Result) : List Result :=
  stdSort compareResultsByVoltageError drained

/-! ## The reported total (`totalCombinations` in `main`) -/

/-- The number of low bits that a natural number loses when it is stored in a `double`
(53-bit significand): `0` below `2^53`. The first argument bounds the recursion. -/
def excessBits : Nat → Nat → Nat
  | 0, _ => 0
  | fuel + 1, x => if x < 9007199254740992 then 0 else excessBits fuel (x / 2) + 1

/-- The `double` nearest to a natural number (ties to even), for numbers below `2^1024`. -/
def roundToDouble (x : Nat) : Nat :=
  let e := excessBits 1024 x
  let q := x / 2 ^ e
  let r := x % 2 ^ e
  let up : Bool := decide (2 ^ e < 2 * r) || (decide (2 ^ e = 2 * r) && decide (q % 2 = 1))
  (if up then q + 1 else q) * 2 ^ e

/-- The call `pow(x, 5)` on a `double` holding the natural number `x`. The exact fifth
power is returned when a `double` can hold it. Otherwise the result is one of the two
neighbouring `double` values; the C++ standard leaves the choice to the library, and
`roundUp` is that choice (`true`: the upper neighbour). -/
def powFive (roundUp : Nat → Bool) (x : Nat) : Nat :=
  let v := x ^ 5
  let e := excessBits 1024 v
  let q := v / 2 ^ e
  if v % 2 ^ e = 0 then v else (if roundUp v then q + 1 else q) * 2 ^ e

/-- The value `static_cast<long long>(pow(resistorValues.size(), 5))` for a value set of
length `N`: the length is converted to `double`, `pow` is applied, and the conversion of
its result to `long long` is defined only below `2^63`. -/
def totalCombinations (roundUp : Nat → Bool) (N : Nat) : Option Int :=
  let x := powFive roundUp (roundToDouble N)
  if x < 9223372036854775808 then some (x : Int) else none

/-! ## Concurrent runs -/

/-- One worker thread between two of its atomic steps: the index tuples its loop nest has
still to visit, its local variables, and whether it has made its final `AppendResults`. -/
structure WorkerProc where
  pending : List IndexTuple
  locals : WorkerLocal
  flushed : Bool

/-- The shared store together with all worker threads. -/
structure SystemState where
  sharedResults : ThreadSafeResults
  workers : List WorkerProc

/-- A worker thread at the start of its loop nest over the range `t`. -/
def launchWorker (N : Nat) (t : ThreadIndexes) : WorkerProc :=
  { pending := loopTuples t N, locals := WorkerLocal.initial, flushed := false }

/-- The state when the workers are launched: the store `ThreadSafeResults sharedResults;`
and one worker per entry of `threadIndexes`, each at the start of its loop nest. -/
def initialSystem (N W : Nat) (indeterminate : Int) : SystemState :=
  { sharedResults := ThreadSafeResults.defaultConstructed indeterminate,
    workers := (threadIndexes N W).map (launchWorker N) }

/-- One step of worker `k`: one execution of its loop body, or, when its loops are done,
its final `AppendResults`. The only accesses to the shared store inside a step are calls
of its member functions, which are atomic. `none` when worker `k` does not exist or has
returned. -/
def workerStep (p : PhysicsParams) (resistorValues : List ℚ) (s : SystemState) (k : Nat) :
    Option SystemState :=
  match s.workers.get? k with
  | none => none
  | some wp =>
    match wp.pending with
    | x :: rest =>
      let r := tupleBody p resistorValues x (wp.locals, s.sharedResults)
      some { sharedResults := r.2,
             workers := s.workers.set k { wp with pending := rest, locals := r.1 } }
    | [] =>
      if wp.flushed then none
      else some { sharedResults := s.sharedResults.AppendResults wp.locals.localResults,
                  workers := s.workers.set k { wp with flushed := true } }

/-- The states of a run: the launch state, then any interleaving of worker steps. A read
of the counter by the monitor (`GetRollingResultsCount`) changes nothing and is not a
step. -/
inductive Reachable (p : PhysicsParams) (resistorValues : List ℚ) (W : Nat)
    (indeterminate : Int) : SystemState → Prop
  | launch : Reachable p resistorValues W indeterminate
      (initialSystem resistorValues.length W indeterminate)
  | step (s s1 : SystemState) (k : Nat) :
      Reachable p resistorValues W indeterminate s →
      workerStep p resistorValues s k = some s1 →
      Reachable p resistorValues W indeterminate s1

/-! ## Single-precision arithmetic

The source computes in `float`. Every finite `float` is a rational number, and each
arithmetic operation of the source returns the exact result rounded to the nearest `float`.
The definitions of this section repeat the worker and the comparator with a rounding
function `fl` applied after every addition, subtraction, multiplication and division;
comparisons and `abs` are exact. With `fl = roundToFloat` this is the arithmetic of the
source as long as no operation overflows or divides by zero; with `fl = id` it is the exact
arithmetic of the definitions above. -/

/-- The `float` (IEEE binary32, 24-bit significand, least exponent `-149`) nearest to a
rational number, ties to the even significand; overflow to infinity is not modelled. -/
def roundToFloat (x : ℚ) : ℚ :=
  let e : Int := max (Int.log 2 |x| - 23) (-149)
  let y : ℚ := |x| / 2 ^ e
  let m : Int := ⌊y⌋
  let f : ℚ := y - m
  let up : Bool := decide (1 / 2 < f) || (decide (f = 1 / 2) && decide (m % 2 = 1))
  (if x < 0 then -1 else 1) * ((if up then m + 1 else m : Int) : ℚ) * 2 ^ e

/-- The expression `feedbackVoltage / (R + 1 / (1 / a + 1 / b))` in rounded arithmetic. -/
def currentRounded (fl : ℚ → ℚ) (vfb R a b : ℚ) : ℚ :=
  fl (vfb / fl (R + fl (1 / fl (fl (1 / a) + fl (1 / b)))))

/-- The expression `feedbackVoltage * (1 + 1 / (R * (1 / a + 1 / b)))` in rounded
arithmetic. -/
def voltageRounded (fl : ℚ → ℚ) (vfb R a b : ℚ) : ℚ :=
  fl (vfb * fl (1 + fl (1 / fl (R * fl (fl (1 / a) + fl (1 / b))))))

/-- The expression `abs(target - v) / target` in rounded arithmetic. -/
def errorRounded (fl : ℚ → ℚ) (tgt v : ℚ) : ℚ :=
  fl (|fl (tgt - v)| / tgt)

/-- The four assignments to `tempResult.currentStateXX` (source lines 146, 149, 152, 155)
in rounded arithmetic. -/
def codeCurrentRounded (fl : ℚ → ℚ) (p : PhysicsParams) (R R1 R2 R3 R4 : ℚ) :
    SwitchState → ℚ
  | .s00 => currentRounded fl p.feedbackVoltage R R1 R3
  | .s01 => currentRounded fl p.feedbackVoltage R R1 R4
  | .s10 => currentRounded fl p.feedbackVoltage R R2 R3
  | .s11 => currentRounded fl p.feedbackVoltage R R2 R4

/-- The two assignments to each `tempResult.voltageErrorXX` (source lines 159 to 172) in
rounded arithmetic. -/
def codeVoltageErrorRounded (fl : ℚ → ℚ) (p : PhysicsParams) (R R1 R2 R3 R4 : ℚ) :
    SwitchState → ℚ
  | .s00 => errorRounded fl (target p .s00) (voltageRounded fl p.feedbackVoltage R R1 R3)
  | .s01 => errorRounded fl (target p .s01) (voltageRounded fl p.feedbackVoltage R R1 R4)
  | .s10 => errorRounded fl (target p .s10) (voltageRounded fl p.feedbackVoltage R R2 R3)
  | .s11 => errorRounded fl (target p .s11) (voltageRounded fl p.feedbackVoltage R R2 R4)

/-- The per-tuple part of the loop body (source lines 138 to 176) in rounded arithmetic;
see `evaluateTuple`. -/
def evaluateTupleRounded (fl : ℚ → ℚ) (p : PhysicsParams) (R R1 R2 R3 R4 : ℚ)
    (t0 : Result) : Result × Bool :=
  let t1 : Result := { t0 with R := R, R1 := R1, R2 := R2, R3 := R3, R4 := R4 }
  let t2 : Result :=
    { t1 with currentState00 := codeCurrentRounded fl p t1.R t1.R1 t1.R2 t1.R3 t1.R4 .s00 }
  if currentRejected p t2.currentState00 then (t2, false) else
  let t3 : Result :=
    { t2 with currentState01 := codeCurrentRounded fl p t2.R t2.R1 t2.R2 t2.R3 t2.R4 .s01 }
  if currentRejected p t3.currentState01 then (t3, false) else
  let t4 : Result :=
    { t3 with currentState10 := codeCurrentRounded fl p t3.R t3.R1 t3.R2 t3.R3 t3.R4 .s10 }
  if currentRejected p t4.currentState10 then (t4, false) else
  let t5 : Result :=
    { t4 with currentState11 := codeCurrentRounded fl p t4.R t4.R1 t4.R2 t4.R3 t4.R4 .s11 }
  if currentRejected p t5.currentState11 then (t5, false) else
  let t6 : Result :=
    { t5 with
      voltageError00 := codeVoltageErrorRounded fl p t5.R t5.R1 t5.R2 t5.R3 t5.R4 .s00 }
  if errorRejected p t6.voltageError00 then (t6, false) else
  let t7 : Result :=
    { t6 with
      voltageError01 := codeVoltageErrorRounded fl p t6.R t6.R1 t6.R2 t6.R3 t6.R4 .s01 }
  if errorRejected p t7.voltageError01 then (t7, false) else
  let t8 : Result :=
    { t7 with
      voltageError10 := codeVoltageErrorRounded fl p t7.R t7.R1 t7.R2 t7.R3 t7.R4 .s10 }
  if errorRejected p t8.voltageError10 then (t8, false) else
  let t9 : Result :=
    { t8 with
      voltageError11 := codeVoltageErrorRounded fl p t8.R t8.R1 t8.R2 t8.R3 t8.R4 .s11 }
  if errorRejected p t9.voltageError11 then (t9, false) else
  (t9, true)

/-- One execution of the loop body (source lines 131 to 176) in rounded arithmetic; see
`tupleStep`. -/
def tupleStepRounded (fl : ℚ → ℚ) (p : PhysicsParams) (R R1 R2 R3 R4 : ℚ)
    (w : WorkerLocal × ThreadSafeResults) : WorkerLocal × ThreadSafeResults :=
  let iterations := w.1.iterations + 1
  let hit : Bool := decide (Int.tmod iterations batchSize = 0)
  let shared := if hit then w.2.UpdateRollingResultsCount batchSize else w.2
  let calls := if hit then w.1.updateCalls ++ [batchSize] else w.1.updateCalls
  let e := evaluateTupleRounded fl p R R1 R2 R3 R4 w.1.tempResult
  ({ localResults := if e.2 then w.1.localResults ++ [e.1] else w.1.localResults,
     tempResult := e.1,
     iterations := iterations,
     updateCalls := calls }, shared)

/-- The loop body at the loop variables `x` in rounded arithmetic; see `tupleBody`. -/
def tupleBodyRounded (fl : ℚ → ℚ) (p : PhysicsParams) (resistorValues : List ℚ)
    (x : IndexTuple) (w : WorkerLocal × ThreadSafeResults) :
    WorkerLocal × ThreadSafeResults :=
  tupleStepRounded fl p (resistorValues.getD x.i 0) (resistorValues.getD x.j 0)
    (resistorValues.getD x.k 0) (resistorValues.getD x.l 0) (resistorValues.getD x.m 0) w

/-- The five nested `for` loops of the worker in rounded arithmetic; see `workerLoops`. -/
def workerLoopsRounded (fl : ℚ → ℚ) (p : PhysicsParams) (t : ThreadIndexes)
    (resistorValues : List ℚ) (w : WorkerLocal × ThreadSafeResults) :
    WorkerLocal × ThreadSafeResults :=
  (rangeIndices t).foldl (fun w i =>
    (List.range resistorValues.length).foldl (fun w j =>
      (List.range resistorValues.length).foldl (fun w k =>
        (List.range resistorValues.length).foldl (fun w l =>
          (List.range resistorValues.length).foldl (fun w m =>
            tupleBodyRounded fl p resistorValues ⟨i, j, k, l, m⟩ w) w) w) w) w) w

/-- Source `calculateResistorCombinations` in rounded arithmetic: the `reserve` call, the
loop nest, then `sharedResults.AppendResults(localResults)`; `none` when the worker has no
defined result. -/
def calculateResistorCombinationsRounded (fl : ℚ → ℚ) (p : PhysicsParams)
    (t : ThreadIndexes) (resistorValues : List ℚ) (sharedResults : ThreadSafeResults) :
    Option ThreadSafeResults :=
  if workerUndefined t resistorValues then none
  else
    let w := workerLoopsRounded fl p t resistorValues (WorkerLocal.initial, sharedResults)
    some (w.2.AppendResults w.1.localResults)

/-- One worker run after the other in rounded arithmetic, each to completion, in the order
of the list of ranges. -/
def runWorkersRounded (fl : ℚ → ℚ) (p : PhysicsParams) (resistorValues : List ℚ) :
    List ThreadIndexes → ThreadSafeResults → Option ThreadSafeResults
  | [], s => some s
  | t :: rest, s =>
    match calculateResistorCombinationsRounded fl p t resistorValues s with
    | none => none
    | some s1 => runWorkersRounded fl p resistorValues rest s1

/-- The vector `finalResults` after `TransferResults`, for workers computing in rounded
arithmetic that complete in the order `order`. -/
def drainedResultsRounded (fl : ℚ → ℚ) (p : PhysicsParams) (resistorValues : List ℚ)
    (order : List ThreadIndexes) (sharedResults : ThreadSafeResults) :
    Option (List Result) :=
  (runWorkersRounded fl p resistorValues order sharedResults).map fun s =>
    s.TransferResults.1

/-- The value `aAverage` of `compareResultsByVoltageError` in rounded arithmetic: the four
errors added from left to right, then divided by `4.0f`. -/
def meanVoltageErrorRounded (fl : ℚ → ℚ) (a : Result) : ℚ :=
  fl (fl (fl (fl (a.voltageError00 + a.voltageError01) + a.voltageError10) +
    a.voltageError11) / 4)

/-- Source `compareResultsByVoltageError` in rounded arithmetic. -/
def compareResultsByVoltageErrorRounded (fl : ℚ → ℚ) (a b : Result) : Bool :=
  decide (meanVoltageErrorRounded fl a < meanVoltageErrorRounded fl b)

/-- The vector `finalResults` of `main` after the call of `std::sort`, the comparator
computing in rounded arithmetic. -/
def sortedResultsRounded (fl : ℚ → ℚ) (drained : List Result) : List Result :=
  stdSort (compareResultsByVoltageErrorRounded fl) drained

/-! ## The value set and `main` -/

/-- The table `decade5Percent` of `main` (E24 series), each `float` literal taken at its
decimal value. -/
def decade5Percent : List ℚ :=
  [10.0, 11.0, 12.0, 13.0, 15.0, 16.0, 18.0, 20.0, 22.0, 24.0, 27.0, 30.0, 33.0, 36.0, 39.0,
   43.0, 47.0, 51.0, 56.0, 62.0, 68.0, 75.0, 82.0, 91.0]

/-- The table `decade1Percent` of `main` (E96 series). -/
def decade1Percent : List ℚ :=
  [10.0, 10.2, 10.5, 10.7, 11.0, 11.3, 11.5, 11.8, 12.1, 12.4, 12.7, 13.0, 13.3, 13.7, 14.0,
   14.3, 14.7, 15.0, 15.4, 15.8, 16.2, 16.5, 16.9, 17.4, 17.8, 18.2, 18.7, 19.1, 19.6, 20.0,
   20.5, 21.0, 21.5, 22.1, 22.6, 23.2, 23.7, 24.3, 24.9, 25.5, 26.1, 26.7, 27.4, 28.0, 28.7,
   29.4, 30.1, 30.9, 31.6, 32.4, 33.2, 34.0, 34.8, 35.7, 36.5, 37.4, 38.3, 39.2, 40.2, 41.2,
   42.2, 43.2, 44.2, 45.3, 46.4, 47.5, 48.7, 49.9, 51.1, 52.3, 53.6, 54.9, 56.2, 57.6, 59.0,
   60.4, 61.9, 63.4, 64.9, 66.5, 68.1, 69.8, 71.5, 73.2, 75.0, 76.8, 78.7, 80.6, 82.5, 84.5,
   86.6, 88.7, 90.9, 93.1, 95.3, 97.6]

/-- The table `decade01Percent` of `main`. -/
def decade01Percent : List ℚ :=
  [10.0, 10.1, 10.2, 10.4, 10.5, 10.6, 10.8, 10.9, 11.0, 11.1, 11.3, 11.4, 11.5, 11.7, 11.8,
   12.0, 12.1, 12.3, 12.4, 12.6, 12.7, 12.9, 13.0, 13.2, 13.3, 13.5, 13.7, 13.8, 14.0, 14.2,
   14.3, 14.5, 14.7, 14.9, 15.0, 15.2, 15.4, 15.6, 15.8, 16.0, 16.2, 16.4, 16.7, 16.9, 17.2,
   17.4, 17.7, 17.9, 18.2, 18.4, 18.7, 19.0, 19.3, 19.6, 19.9, 20.2, 20.5, 20.8, 21.1, 21.5,
   21.8, 22.2, 22.5, 22.9, 23.3, 23.7, 24.1, 24.6, 25.0, 25.5, 26.0, 26.5, 27.0, 27.5, 28.0,
   28.5, 29.1, 29.6, 30.2, 30.8, 31.4, 32.0, 32.7, 33.4, 34.1, 34.8, 35.5, 36.2, 37.0, 37.7,
   38.5, 39.2, 40.0, 40.8, 41.6, 42.4, 43.2, 44.0, 44.9, 45.7, 46.6, 47.5, 48.4, 49.3, 50.2,
   51.1, 52.0, 53.0, 54.0, 55.0, 56.0, 57.0, 58.0, 59.0, 60.0, 61.0, 62.0, 63.0, 64.0, 65.0,
   66.5, 68.1, 69.8, 71.5, 73.2, 75.0, 76.8, 78.7, 80.6, 82.5, 84.5, 86.6, 88.7, 90.9, 93.1,
   95.3, 97.6]

/-- The vector `resistorValues` built in `main`: for each tolerance class whose flag is set,
in the order 5%, 1%, 0.1%, every decade value times `std::pow(10.0f, i - 1)` for the single
`i` of the class's loop (`i = 4`, `3` and `2`, so the factors 1000, 100 and 10). -/
def buildResistorValues (p : PhysicsParams) : List ℚ :=
  (if p.use5PercentResistors then decade5Percent.map (fun d => d * 10 ^ (4 - 1)) else []) ++
    (if p.use1PercentResistors then decade1Percent.map (fun d => d * 10 ^ (3 - 1)) else []) ++
    (if p.use01PercentResistors then decade01Percent.map (fun d => d * 10 ^ (2 - 1)) else [])

/-- The steps of `main`, in the order of the source. -/
inductive MainEvent where
  | reportWorkerThreads
  | buildValueSet
  | computeTotal
  | computeRanges
  | constructStore
  | startMonitor
  | startWorker (i : Nat)
  | joinWorkers
  | stopMonitor
  | drainResults
  | sortResults
  deriving DecidableEq, Repr

/-- What a run of `main` that returns has done: its return value, its steps in order, the
value of `totalCombinations` when it was computed, and `finalResults` when it was
produced. -/
structure MainOutcome where
  status : Int
  events : List MainEvent
  total : Option Int
  finalResults : Option (List Result)

/-- Source `main`, with the controlling inputs and the worker count as parameters. Console
input and output are left out. The workers are taken to complete in the order of their
ranges. `none` when a worker has no defined result, so that `main` does not return. -/
def main (inputs : PhysicsParams) (workerThreads : Nat) (indeterminate : Int)
    (roundUp : Nat → Bool) : Option MainOutcome :=
  if workerThreads ≤ 0 then
    some { status := 1, events := [MainEvent.reportWorkerThreads], total := none,
           finalResults := none }
  else
    let resistorValues := buildResistorValues inputs
    let total := totalCombinations roundUp resistorValues.length
    let ranges := threadIndexes resistorValues.length workerThreads
    let sharedResults := ThreadSafeResults.defaultConstructed indeterminate
    match runWorkers inputs resistorValues ranges sharedResults with
    | none => none
    | some s =>
      some { status := 0,
             events := [MainEvent.buildValueSet, MainEvent.computeTotal,
               MainEvent.computeRanges, MainEvent.constructStore, MainEvent.startMonitor] ++
               (List.range workerThreads).map MainEvent.startWorker ++
               [MainEvent.joinWorkers, MainEvent.stopMonitor, MainEvent.drainResults,
                MainEvent.sortResults],
             total := total,
             finalResults := some (sortedResults s.TransferResults.1) }

/-- The store after `AppendResults` has been called with each batch of `batches`, in
order. -/
def appendAll (s : ThreadSafeResults) (batches : List (List Result)) : ThreadSafeResults :=
  batches.foldl ThreadSafeResults.AppendResults s

/-! ## Reference definitions

These follow the wording of the specification (sections 4.1, 4.2 and 4.5); the code is
compared with them below. -/

/-- Parallel resistance `parallel(a,b) = 1/(1/a + 1/b)`. -/
def parallel (a b : ℚ) : ℚ := 1 / (1 / a + 1 / b)

/-- The fixed mapping of a switch state to its leg pair:
00 to (R1,R3), 01 to (R1,R4), 10 to (R2,R3), 11 to (R2,R4). -/
def legPair (R1 R2 R3 R4 : ℚ) : SwitchState → ℚ × ℚ
  | .s00 => (R1, R3)
  | .s01 => (R1, R4)
  | .s10 => (R2, R3)
  | .s11 => (R2, R4)

/-- `current_s = Vfb / (R + parallel(legA, legB))`. -/
def specCurrent (p : PhysicsParams) (R R1 R2 R3 R4 : ℚ) (s : SwitchState) : ℚ :=
  p.feedbackVoltage / (R + parallel (legPair R1 R2 R3 R4 s).1 (legPair R1 R2 R3 R4 s).2)

/-- `V_s = Vfb * (1 + parallel(legA,legB)/R)`. -/
def specVoltage (p : PhysicsParams) (R R1 R2 R3 R4 : ℚ) (s : SwitchState) : ℚ :=
  p.feedbackVoltage *
    (1 + parallel (legPair R1 R2 R3 R4 s).1 (legPair R1 R2 R3 R4 s).2 / R)

/-- The relative error `|target_s - V_s| / target_s`. -/
def specVoltageError (p : PhysicsParams) (R R1 R2 R3 R4 : ℚ) (s : SwitchState) : ℚ :=
  |target p s - specVoltage p R R1 R2 R3 R4 s| / target p s

/-- The acceptance condition: all four currents lie in `[minimumCurrent, maximumCurrent]`
and all four relative voltage errors are at most `allowableError`. -/
def specAccepts (p : PhysicsParams) (R R1 R2 R3 R4 : ℚ) : Prop :=
  (∀ s, p.minimumCurrent ≤ specCurrent p R R1 R2 R3 R4 s ∧
      specCurrent p R R1 R2 R3 R4 s ≤ p.maximumCurrent) ∧
    ∀ s, specVoltageError p R R1 R2 R3 R4 s ≤ p.allowableError

instance (p : PhysicsParams) (R R1 R2 R3 R4 : ℚ) : Decidable (specAccepts p R R1 R2 R3 R4) := by
  unfold specAccepts
  infer_instance

/-- The candidate result of a tuple: its five resistances, four currents and four
relative voltage errors. -/
def specRecord (p : PhysicsParams) (R R1 R2 R3 R4 : ℚ) : Result :=
  { R := R, R1 := R1, R2 := R2, R3 := R3, R4 := R4,
    currentState00 := specCurrent p R R1 R2 R3 R4 .s00,
    currentState01 := specCurrent p R R1 R2 R3 R4 .s01,
    currentState10 := specCurrent p R R1 R2 R3 R4 .s10,
    currentState11 := specCurrent p R R1 R2 R3 R4 .s11,
    voltageError00 := specVoltageError p R R1 R2 R3 R4 .s00,
    voltageError01 := specVoltageError p R R1 R2 R3 R4 .s01,
    voltageError10 := specVoltageError p R R1 R2 R3 R4 .s10,
    voltageError11 := specVoltageError p R R1 R2 R3 R4 .s11 }

/-- All index tuples of `[0,N)^5`, in lexicographic order. -/
def allTuples (N : Nat) : List IndexTuple :=
  (List.range N).flatMap fun i =>
    (List.range N).flatMap fun j =>
      (List.range N).flatMap fun k =>
        (List.range N).flatMap fun l =>
          (List.range N).map fun m => ⟨i, j, k, l, m⟩

/-- Whether the values selected by an index tuple satisfy the acceptance condition. -/
def feasibleAt (p : PhysicsParams) (resistorValues : List ℚ) (x : IndexTuple) : Bool :=
  decide (specAccepts p (resistorValues.getD x.i 0) (resistorValues.getD x.j 0)
    (resistorValues.getD x.k 0) (resistorValues.getD x.l 0) (resistorValues.getD x.m 0))

/-- The candidate result of the values selected by an index tuple. -/
def recordAt (p : PhysicsParams) (resistorValues : List ℚ) (x : IndexTuple) : Result :=
  specRecord p (resistorValues.getD x.i 0) (resistorValues.getD x.j 0)
    (resistorValues.getD x.k 0) (resistorValues.getD x.l 0) (resistorValues.getD x.m 0)

/-- The current of a state computed in the arithmetic `fl`:
`Vfb / (R + parallel(legA, legB))` with `parallel(a,b) = 1/(1/a + 1/b)`, every operation
rounded. -/
def refCurrent (fl : ℚ → ℚ) (p : PhysicsParams) (R R1 R2 R3 R4 : ℚ) (s : SwitchState) : ℚ :=
  fl (p.feedbackVoltage /
    fl (R + fl (1 / fl (fl (1 / (legPair R1 R2 R3 R4 s).1) +
      fl (1 / (legPair R1 R2 R3 R4 s).2)))))

/-- The relative voltage error of a state computed in the arithmetic `fl`, from the output
voltage `Vfb * (1 + 1 / (R * (1/legA + 1/legB)))`, every operation rounded. -/
def refVoltageError (fl : ℚ → ℚ) (p : PhysicsParams) (R R1 R2 R3 R4 : ℚ)
    (s : SwitchState) : ℚ :=
  fl (|fl (target p s -
      fl (p.feedbackVoltage *
        fl (1 + fl (1 / fl (R * fl (fl (1 / (legPair R1 R2 R3 R4 s).1) +
          fl (1 / (legPair R1 R2 R3 R4 s).2)))))))| / target p s)

/-- The acceptance condition in the arithmetic `fl`: all four currents lie in
`[minimumCurrent, maximumCurrent]` and all four relative voltage errors are at most
`allowableError`. -/
def refAccepts (fl : ℚ → ℚ) (p : PhysicsParams) (R R1 R2 R3 R4 : ℚ) : Prop :=
  (∀ s, p.minimumCurrent ≤ refCurrent fl p R R1 R2 R3 R4 s ∧
      refCurrent fl p R R1 R2 R3 R4 s ≤ p.maximumCurrent) ∧
    ∀ s, refVoltageError fl p R R1 R2 R3 R4 s ≤ p.allowableError

instance (fl : ℚ → ℚ) (p : PhysicsParams) (R R1 R2 R3 R4 : ℚ) :
    Decidable (refAccepts fl p R R1 R2 R3 R4) := by
  unfold refAccepts
  infer_instance

/-- The candidate result of a tuple in the arithmetic `fl`: its five resistances, four
currents and four relative voltage errors. -/
def refRecord (fl : ℚ → ℚ) (p : PhysicsParams) (R R1 R2 R3 R4 : ℚ) : Result :=
  { R := R, R1 := R1, R2 := R2, R3 := R3, R4 := R4,
    currentState00 := refCurrent fl p R R1 R2 R3 R4 .s00,
    currentState01 := refCurrent fl p R R1 R2 R3 R4 .s01,
    currentState10 := refCurrent fl p R R1 R2 R3 R4 .s10,
    currentState11 := refCurrent fl p R R1 R2 R3 R4 .s11,
    voltageError00 := refVoltageError fl p R R1 R2 R3 R4 .s00,
    voltageError01 := refVoltageError fl p R R1 R2 R3 R4 .s01,
    voltageError10 := refVoltageError fl p R R1 R2 R3 R4 .s10,
    voltageError11 := refVoltageError fl p R R1 R2 R3 R4 .s11 }

/-- Whether the values selected by an index tuple satisfy the acceptance condition in the
arithmetic `fl`. -/
def passesAt (fl : ℚ → ℚ) (p : PhysicsParams) (resistorValues : List ℚ) (x : IndexTuple) :
    Bool :=
  decide (refAccepts fl p (resistorValues.getD x.i 0) (resistorValues.getD x.j 0)
    (resistorValues.getD x.k 0) (resistorValues.getD x.l 0) (resistorValues.getD x.m 0))

/-- The candidate result, in the arithmetic `fl`, of the values selected by an index
tuple. -/
def refRecordAt (fl : ℚ → ℚ) (p : PhysicsParams) (resistorValues : List ℚ)
    (x : IndexTuple) : Result :=
  refRecord fl p (resistorValues.getD x.i 0) (resistorValues.getD x.j 0)
    (resistorValues.getD x.k 0) (resistorValues.getD x.l 0) (resistorValues.getD x.m 0)

/-- The mean of the four voltage errors of a record computed in the arithmetic `fl`:
`(((e00 + e01) + e10) + e11) / 4`, every operation rounded. -/
def refMeanError (fl : ℚ → ℚ) (a : Result) : ℚ :=
  fl (fl (fl (fl (a.voltageError00 + a.voltageError01) + a.voltageError10) +
    a.voltageError11) / 4)

/-- The exact mean of the four voltage errors of a record. -/
def exactMeanError (a : Result) : ℚ :=
  (a.voltageError00 + a.voltageError01 + a.voltageError10 + a.voltageError11) / 4

/-! ## Auxiliary definitions for the proofs -/

/-- Inputs on which the `float` arithmetic of the tuple `R = 1`, `R1 = R2 = R3 = R4 = 2` is
exact: every intermediate value is 0 or a power of two. -/
def dyadicInputs : PhysicsParams :=
  { targetOutputs := [4, 4, 4, 4],
    feedbackVoltage := 2,
    use5PercentResistors := true,
    use1PercentResistors := true,
    use01PercentResistors := true,
    allowableError := 1 / 4,
    minimumCurrent := 1 / 2,
    maximumCurrent := 2 }

/-- A record with the state-00 error 1 and the state-01 error `2^-24`. -/
def tieRecordA : Result :=
  { zeroResult with voltageError00 := 1, voltageError01 := 1 / 16777216 }

/-- A record with the state-00 error 1 and no other error. -/
def tieRecordB : Result :=
  { zeroResult with voltageError00 := 1 }

/-- A worker state in which every field of the reused `tempResult` holds the value 7 left
by earlier iterations. -/
def usedWorkerState : WorkerLocal × ThreadSafeResults :=
  ({ localResults := [tieRecordB],
     tempResult :=
       { R := 7, R1 := 7, R2 := 7, R3 := 7, R4 := 7,
         currentState00 := 7, currentState01 := 7, currentState10 := 7, currentState11 := 7,
         voltageError00 := 7, voltageError01 := 7, voltageError10 := 7, voltageError11 := 7 },
     iterations := 12,
     updateCalls := [] },
   { results := [tieRecordA], rollingResultsCount := 3 })

/-- The state of a worker computing in rounded arithmetic after it has run its loop body
on the index tuples `ts`, in order, starting from the state `w`. -/
def afterTuplesRounded (fl : ℚ → ℚ) (p : PhysicsParams) (resistorValues : List ℚ)
    (ts : List IndexTuple) (w : WorkerLocal × ThreadSafeResults) :
    WorkerLocal × ThreadSafeResults :=
  ts.foldl (fun w x => tupleBodyRounded fl p resistorValues x w) w

/-- The results that a worker with range `t`, computing in the arithmetic `fl`, appends to
the shared store. -/
def workerOutputRounded (fl : ℚ → ℚ) (p : PhysicsParams) (resistorValues : List ℚ)
    (t : ThreadIndexes) : List Result :=
  ((loopTuples t resistorValues.length).filter (passesAt fl p resistorValues)).map
    (refRecordAt fl p resistorValues)

/-- The number of tuples a worker has examined when its loop nest ends: the final value of
its local `iterations`. `none` when the worker has no defined result. -/
def tuplesExamined (p : PhysicsParams) (t : ThreadIndexes) (resistorValues : List ℚ)
    (sharedResults : ThreadSafeResults) : Option Int :=
  (workerRun p t resistorValues sharedResults).map fun w => w.1.iterations

/-- What a worker has added to the shared counter after `iterations` loop bodies. -/
def contribution (wp : WorkerProc) : Int :=
  batchSize * (wp.locals.iterations / 10000000)

/-- The tuples a worker has examined plus those it has still to examine. -/
def workload (wp : WorkerProc) : Int :=
  wp.locals.iterations + (wp.pending.length : Int)

/-- The accounting invariant of a run over a value set of length `N` whose counter held
`c0` at the launch. -/
def SystemInv (c0 : Int) (N : Nat) (s : SystemState) : Prop :=
  s.sharedResults.rollingResultsCount = c0 + (s.workers.map contribution).sum ∧
    (∀ wp ∈ s.workers, 0 ≤ wp.locals.iterations) ∧
    (s.workers.map workload).sum = ((N ^ 5 : Nat) : Int)

/-- The index tuples visited by the four inner loops for one value `i` of the outer loop. -/
def rowTuples (N i : Nat) : List IndexTuple :=
  (List.range N).flatMap fun j =>
    (List.range N).flatMap fun k =>
      (List.range N).flatMap fun l =>
        (List.range N).map fun m => ⟨i, j, k, l, m⟩

/-- The results a worker with range `t` appends to the shared store. -/
def workerOutput (p : PhysicsParams) (resistorValues : List ℚ) (t : ThreadIndexes) :
    List Result :=
  ((loopTuples t resistorValues.length).filter (feasibleAt p resistorValues)).map
    (recordAt p resistorValues)

/-- The worker's state after it has run its loop body on the index tuples `ts`, in order,
starting from the state `w`. -/
def afterTuples (p : PhysicsParams) (resistorValues : List ℚ) (ts : List IndexTuple)
    (w : WorkerLocal × ThreadSafeResults) : WorkerLocal × ThreadSafeResults :=
  ts.foldl (fun w x => tupleBody p resistorValues x w) w

/-- The progress accounting of a worker that has examined `n` tuples, against a shared
counter that held `c0` when the worker started and that no other worker touched. -/
def ProgressInv (c0 : Int) (n : Nat) (w : WorkerLocal × ThreadSafeResults) : Prop :=
  w.1.iterations = (n : Int) ∧
    w.1.updateCalls = List.replicate (n / 10000000) batchSize ∧
    w.2.rollingResultsCount = c0 + batchSize * ((n / 10000000 : Nat) : Int)

/-- The entry pushed by iteration `i` of the partition loop. -/
def blockOf (blockSize i : Nat) : ThreadIndexes :=
  { startIndex := if i > 0 then ((i * blockSize) % sizeModulus + 1) % sizeModulus
      else (i * blockSize) % sizeModulus,
    endIndex := ((i + 1) * blockSize) % sizeModulus }

/-! ## Partition lemmas -/

theorem foldl_pushThreadIndexes (b : Nat) (l : List Nat) (acc : List ThreadIndexes) :
    l.foldl (pushThreadIndexes b) acc = acc ++ l.map (blockOf b) := by
  induction l generalizing acc with
  | nil => simp
  | cons i l ih =>
    simp only [List.foldl_cons, List.map_cons, ih]
    simp [pushThreadIndexes, blockOf]

theorem threadIndexes_succ (N n : Nat) :
    threadIndexes N (n + 1) =
      (List.range n).map (blockOf ((N / (n + 1) + N % (n + 1) / (n + 1)) % sizeModulus)) ++
        [bumpLast (N % (n + 1) % (n + 1))
          (blockOf ((N / (n + 1) + N % (n + 1) / (n + 1)) % sizeModulus) n)] := by
  simp only [threadIndexes, foldl_pushThreadIndexes, List.nil_append, List.range_succ,
    List.map_append, List.map_cons, List.map_nil, List.modifyLast_append_one]

theorem length_threadIndexes (N W : Nat) (hW : 0 < W) : (threadIndexes N W).length = W := by
  obtain ⟨n, rfl⟩ : ∃ n, W = n + 1 := ⟨W - 1, by omega⟩
  simp [threadIndexes_succ]

theorem rangeIndices_blockOf_zero (b : Nat) (hb : b < sizeModulus) :
    rangeIndices (blockOf b 0) = List.range' 0 (b + 1) := by
  simp [rangeIndices, blockOf, Nat.mod_eq_of_lt hb]

theorem rangeIndices_blockOf_succ (b n : Nat) (hb : (n + 2) * b < sizeModulus) :
    rangeIndices (blockOf b (n + 1)) = List.range' ((n + 1) * b + 1) b := by
  have h1 : (n + 2) * b = (n + 1) * b + b := by ring
  have h2 : (n + 1 + 1) * b = (n + 1) * b + b := by ring
  have h3 : (n + 1) * b < sizeModulus := by omega
  have h4 : (n + 1) * b + 1 < sizeModulus := by
    rcases Nat.eq_zero_or_pos b with h0 | h0
    · subst h0; simp [sizeModulus]
    · omega
  have h5 : (n + 1) * b + b < sizeModulus := by omega
  simp only [rangeIndices, blockOf, Nat.succ_pos, gt_iff_lt, if_true, h2,
    Nat.mod_eq_of_lt h3, Nat.mod_eq_of_lt h4, Nat.mod_eq_of_lt h5]
  congr 1
  omega

theorem flatMap_rangeIndices_prefix (b : Nat) :
    ∀ n, (n + 1) * b < sizeModulus →
      ((List.range (n + 1)).map (blockOf b)).flatMap rangeIndices =
        List.range' 0 ((n + 1) * b + 1) := by
  intro n
  induction n with
  | zero =>
    intro h
    have hb : b < sizeModulus := by simpa using h
    rw [show List.range (0 + 1) = [0] from rfl]
    simp [rangeIndices_blockOf_zero b hb]
  | succ n ih =>
    intro h
    have h1 : (n + 1 + 1) * b = (n + 1) * b + b := by ring
    have h3 : (n + 1) * b < sizeModulus := by omega
    rw [List.range_succ, List.map_append, List.flatMap_append, ih h3]
    simp only [List.map_cons, List.map_nil, List.flatMap_cons, List.flatMap_nil,
      List.append_nil]
    have h4 : (n + 2) * b = (n + 1) * b + b := by ring
    rw [rangeIndices_blockOf_succ b n (by omega), h1]
    have := List.range'_append 0 ((n + 1) * b + 1) b 1
    simp only [Nat.zero_add, Nat.one_mul] at this
    rw [this]
    congr 1
    omega

theorem bumpLast_arith (N b r q : Nat) (hN : 0 < N) (hNs : N < 18446744073709551616)
    (hsum : q + b + r = N) (hq0 : b = 0 → q = 0) :
    (q % 18446744073709551616 + 1) % 18446744073709551616 = q + 1 ∧
    ((q + b) % 18446744073709551616 + (r + 18446744073709551616 - 1) % 18446744073709551616)
      % 18446744073709551616 = N - 1 := by
  constructor
  · rcases Nat.eq_zero_or_pos b with h0 | h0
    · have := hq0 h0
      omega
    · omega
  · omega

theorem rangeIndices_bumpLast_single (N : Nat) (hN : 0 < N) (hNs : N < sizeModulus) :
    rangeIndices (bumpLast (N % 1 % 1) (blockOf ((N / 1 + N % 1 / 1) % sizeModulus) 0)) =
      List.range N := by
  have e1 : (N / 1 + N % 1 / 1) % sizeModulus = N := by
    rw [Nat.mod_one, Nat.div_one, Nat.zero_div, Nat.add_zero, Nat.mod_eq_of_lt hNs]
  rw [e1, Nat.mod_one]
  have h := bumpLast_arith N N 0 0 hN hNs (by omega) (by omega)
  simp only [rangeIndices, bumpLast, blockOf, sizeModulus, Nat.lt_irrefl, gt_iff_lt,
    if_false, Nat.zero_mul, Nat.zero_add, Nat.one_mul, Nat.zero_mod,
    List.range_eq_range'] at h ⊢
  rw [h.2]
  congr 1
  omega

theorem rangeIndices_bumpLast_last (N k b r : Nat) (hN : 0 < N) (hNs : N < sizeModulus)
    (hsum : (k + 2) * b + r = N) :
    rangeIndices (bumpLast r (blockOf b (k + 1))) =
      List.range' ((k + 1) * b + 1) (N - ((k + 1) * b + 1)) := by
  have h1 : (k + 1 + 1) * b = (k + 1) * b + b := by ring
  have h2 : (k + 2) * b = (k + 1) * b + b := by ring
  have hq0 : b = 0 → (k + 1) * b = 0 := by intro h; simp [h]
  have h := bumpLast_arith N b r ((k + 1) * b) hN hNs (by omega) hq0
  simp only [rangeIndices, bumpLast, blockOf, sizeModulus, Nat.succ_pos, gt_iff_lt,
    if_true, h1] at h ⊢
  rw [h.1, h.2]
  congr 1
  omega

theorem flatMap_rangeIndices_threadIndexes (N W : Nat) (hN : 0 < N) (hW : 0 < W)
    (hNs : N < sizeModulus) :
    (threadIndexes N W).flatMap rangeIndices = List.range N := by
  obtain ⟨n, rfl⟩ : ∃ n, W = n + 1 := ⟨W - 1, by omega⟩
  rw [threadIndexes_succ]
  rcases Nat.eq_zero_or_pos n with h0 | h0
  · subst h0
    simp only [List.range_zero, List.map_nil, List.nil_append, List.flatMap_cons,
      List.flatMap_nil, List.append_nil, Nat.zero_add]
    exact rangeIndices_bumpLast_single N hN hNs
  · obtain ⟨k, rfl⟩ : ∃ k, n = k + 1 := ⟨n - 1, by omega⟩
    have hr : N % (k + 2) < k + 2 := Nat.mod_lt _ (by omega)
    have hdm : (k + 2) * (N / (k + 2)) + N % (k + 2) = N := Nat.div_add_mod N (k + 2)
    have hb : N / (k + 2) ≤ N := Nat.div_le_self _ _
    have e0 : N % (k + 2) / (k + 2) = 0 := Nat.div_eq_of_lt hr
    have e1 : (N / (k + 2) + N % (k + 2) / (k + 2)) % sizeModulus = N / (k + 2) := by
      rw [e0, Nat.add_zero, Nat.mod_eq_of_lt (by omega)]
    have h1 : (k + 2) * (N / (k + 2)) = (k + 1) * (N / (k + 2)) + N / (k + 2) := by ring
    have hq0 : N / (k + 2) = 0 → (k + 1) * (N / (k + 2)) = 0 := by intro h; simp [h]
    rw [List.flatMap_append]
    simp only [List.flatMap_cons, List.flatMap_nil, List.append_nil]
    have e2 : N % (k + 2) % (k + 2) = N % (k + 2) := Nat.mod_eq_of_lt hr
    rw [e1, e2, rangeIndices_bumpLast_last N k _ _ hN hNs hdm]
    have hpre := flatMap_rangeIndices_prefix (N / (k + 2)) k (by omega)
    rw [hpre]
    have := List.range'_append 0 ((k + 1) * (N / (k + 2)) + 1)
      (N - ((k + 1) * (N / (k + 2)) + 1)) 1
    simp only [Nat.zero_add, Nat.one_mul] at this
    rw [this, List.range_eq_range']
    congr 1
    omega

theorem count_rangeIndices (x : Nat) (t : ThreadIndexes) :
    (rangeIndices t).count x = if covers x t then 1 else 0 := by
  by_cases h : covers x t = true
  · rw [if_pos h]
    apply List.count_eq_one_of_mem (List.nodup_range' _ _)
    simp only [covers, Bool.and_eq_true, decide_eq_true_eq] at h
    simp only [rangeIndices, List.mem_range'_1]
    omega
  · rw [if_neg h]
    apply List.count_eq_zero_of_not_mem
    simp only [covers, Bool.and_eq_true, decide_eq_true_eq] at h
    simp only [rangeIndices, List.mem_range'_1]
    omega

theorem countP_covers_eq_count (x : Nat) (l : List ThreadIndexes) :
    l.countP (covers x) = (l.flatMap rangeIndices).count x := by
  induction l with
  | nil => simp
  | cons t l ih =>
    rw [List.flatMap_cons, List.count_append, count_rangeIndices, List.countP_cons, ih]
    omega

theorem count_range (x N : Nat) : (List.range N).count x = if x < N then 1 else 0 := by
  by_cases h : x < N
  · rw [if_pos h]
    exact List.count_eq_one_of_mem (List.nodup_range N) (List.mem_range.mpr h)
  · rw [if_neg h]
    exact List.count_eq_zero_of_not_mem (fun hm => h (List.mem_range.mp hm))

/-! ## Per-tuple evaluation -/

theorem codeCurrent_eq_spec (p : PhysicsParams) (R R1 R2 R3 R4 : ℚ) (s : SwitchState) :
    codeCurrent p R R1 R2 R3 R4 s = specCurrent p R R1 R2 R3 R4 s := by
  cases s <;> rfl

theorem codeVoltage_eq_spec (p : PhysicsParams) (R R1 R2 R3 R4 : ℚ) (s : SwitchState) :
    codeVoltage p R R1 R2 R3 R4 s = specVoltage p R R1 R2 R3 R4 s := by
  cases s <;>
    simp only [codeVoltage, specVoltage, parallel, legPair, one_div, mul_inv_rev,
      div_eq_mul_inv, one_mul]

theorem codeVoltageError_eq_spec (p : PhysicsParams) (R R1 R2 R3 R4 : ℚ) (s : SwitchState) :
    codeVoltageError p R R1 R2 R3 R4 s = specVoltageError p R R1 R2 R3 R4 s := by
  simp only [codeVoltageError, specVoltageError, codeVoltage_eq_spec]

theorem specAccepts_iff (p : PhysicsParams) (R R1 R2 R3 R4 : ℚ) :
    specAccepts p R R1 R2 R3 R4 ↔
      currentRejected p (specCurrent p R R1 R2 R3 R4 .s00) = false ∧
      currentRejected p (specCurrent p R R1 R2 R3 R4 .s01) = false ∧
      currentRejected p (specCurrent p R R1 R2 R3 R4 .s10) = false ∧
      currentRejected p (specCurrent p R R1 R2 R3 R4 .s11) = false ∧
      errorRejected p (specVoltageError p R R1 R2 R3 R4 .s00) = false ∧
      errorRejected p (specVoltageError p R R1 R2 R3 R4 .s01) = false ∧
      errorRejected p (specVoltageError p R R1 R2 R3 R4 .s10) = false ∧
      errorRejected p (specVoltageError p R R1 R2 R3 R4 .s11) = false := by
  simp only [specAccepts, currentRejected, errorRejected, Bool.or_eq_false_iff,
    decide_eq_false_iff_not, not_lt, gt_iff_lt]
  constructor
  · intro h
    exact ⟨h.1 .s00, h.1 .s01, h.1 .s10, h.1 .s11, h.2 .s00, h.2 .s01, h.2 .s10, h.2 .s11⟩
  · rintro ⟨h1, h2, h3, h4, h5, h6, h7, h8⟩
    exact ⟨fun s => by cases s <;> assumption, fun s => by cases s <;> assumption⟩

theorem evaluateTuple_eq (p : PhysicsParams) (R R1 R2 R3 R4 : ℚ) (t0 : Result) :
    (specAccepts p R R1 R2 R3 R4 ∧
        evaluateTuple p R R1 R2 R3 R4 t0 = (specRecord p R R1 R2 R3 R4, true)) ∨
      (¬ specAccepts p R R1 R2 R3 R4 ∧ (evaluateTuple p R R1 R2 R3 R4 t0).2 = false) := by
  rw [specAccepts_iff]
  simp only [evaluateTuple, codeCurrent_eq_spec, codeVoltageError_eq_spec]
  split_ifs <;> simp_all [specRecord]

/-! ## The loop body and the loop nest -/

theorem tupleBody_localResults (p : PhysicsParams) (vals : List ℚ) (x : IndexTuple)
    (w : WorkerLocal × ThreadSafeResults) :
    (tupleBody p vals x w).1.localResults =
      w.1.localResults ++ if feasibleAt p vals x then [recordAt p vals x] else [] := by
  rcases evaluateTuple_eq p (vals.getD x.i 0) (vals.getD x.j 0) (vals.getD x.k 0)
      (vals.getD x.l 0) (vals.getD x.m 0) w.1.tempResult with ⟨ha, he⟩ | ⟨ha, he⟩
  · simp only [tupleBody, tupleStep, feasibleAt, recordAt, ha, he, decide_True, if_true]
  · simp only [tupleBody, tupleStep, feasibleAt, ha, he, decide_False, Bool.false_eq_true, if_false,
      List.append_nil]

theorem tupleBody_results (p : PhysicsParams) (vals : List ℚ) (x : IndexTuple)
    (w : WorkerLocal × ThreadSafeResults) :
    (tupleBody p vals x w).2.results = w.2.results := by
  simp only [tupleBody, tupleStep]
  split_ifs <;> rfl

theorem afterTuples_append (p : PhysicsParams) (vals : List ℚ) (ts us : List IndexTuple)
    (w : WorkerLocal × ThreadSafeResults) :
    afterTuples p vals (ts ++ us) w = afterTuples p vals us (afterTuples p vals ts w) := by
  simp [afterTuples, List.foldl_append]

theorem afterTuples_localResults (p : PhysicsParams) (vals : List ℚ) (ts : List IndexTuple) :
    ∀ w : WorkerLocal × ThreadSafeResults,
      (afterTuples p vals ts w).1.localResults =
        w.1.localResults ++ (ts.filter (feasibleAt p vals)).map (recordAt p vals) := by
  induction ts with
  | nil => intro w; simp [afterTuples]
  | cons x ts ih =>
    intro w
    have h := ih (tupleBody p vals x w)
    simp only [afterTuples, List.foldl_cons] at h ⊢
    rw [h, tupleBody_localResults, List.filter_cons]
    by_cases hf : feasibleAt p vals x = true <;> simp [hf]

theorem afterTuples_results (p : PhysicsParams) (vals : List ℚ) (ts : List IndexTuple) :
    ∀ w : WorkerLocal × ThreadSafeResults,
      (afterTuples p vals ts w).2.results = w.2.results := by
  induction ts with
  | nil => intro w; rfl
  | cons x ts ih =>
    intro w
    have h := ih (tupleBody p vals x w)
    simp only [afterTuples, List.foldl_cons] at h ⊢
    rw [h, tupleBody_results]

theorem foldl_flatMap_eq {α β γ : Type} (g : γ → β → γ) (f : α → List β) (l : List α) :
    ∀ a : γ, (l.flatMap f).foldl g a = l.foldl (fun a x => (f x).foldl g a) a := by
  induction l with
  | nil => intro a; rfl
  | cons x l ih =>
    intro a
    rw [List.flatMap_cons, List.foldl_append, ih, List.foldl_cons]

theorem workerLoops_eq_afterTuples (p : PhysicsParams) (t : ThreadIndexes) (vals : List ℚ)
    (w : WorkerLocal × ThreadSafeResults) :
    workerLoops p t vals w = afterTuples p vals (loopTuples t vals.length) w := by
  simp only [workerLoops, afterTuples, loopTuples, foldl_flatMap_eq, List.foldl_map]

/-! ## Progress accounting -/

theorem progressInv_initial (shared : ThreadSafeResults) :
    ProgressInv shared.rollingResultsCount 0 (WorkerLocal.initial, shared) := by
  simp [ProgressInv, WorkerLocal.initial]

theorem progressInv_tupleBody (p : PhysicsParams) (vals : List ℚ) (x : IndexTuple)
    (c0 : Int) (n : Nat) (w : WorkerLocal × ThreadSafeResults) (h : ProgressInv c0 n w) :
    ProgressInv c0 (n + 1) (tupleBody p vals x w) := by
  obtain ⟨h1, h2, h3⟩ := h
  have ht : Int.tmod (w.1.iterations + 1) batchSize = ((n : Int) + 1) % 10000000 := by
    rw [h1]
    exact Int.tmod_eq_emod (by omega) (by decide)
  by_cases hm : (n + 1) % 10000000 = 0
  · have hd : (n + 1) / 10000000 = n / 10000000 + 1 := by omega
    have hz : ((n : Int) + 1) % 10000000 = 0 := by omega
    have hhit : decide (Int.tmod (w.1.iterations + 1) batchSize = 0) = true := by
      rw [ht]; exact decide_eq_true hz
    refine ⟨?_, ?_, ?_⟩
    · simp [tupleBody, tupleStep, h1]
    · simp only [tupleBody, tupleStep, hhit, if_true, h2, hd, List.replicate_succ']
    · simp only [tupleBody, tupleStep, hhit, if_true, h3, hd,
        ThreadSafeResults.UpdateRollingResultsCount]
      push_cast
      ring
  · have hd : (n + 1) / 10000000 = n / 10000000 := by omega
    have hz : ¬ ((n : Int) + 1) % 10000000 = 0 := by omega
    have hhit : decide (Int.tmod (w.1.iterations + 1) batchSize = 0) = false := by
      rw [ht]; exact decide_eq_false hz
    refine ⟨?_, ?_, ?_⟩
    · simp [tupleBody, tupleStep, h1]
    · simp only [tupleBody, tupleStep, hhit, Bool.false_eq_true, if_false, h2, hd]
    · simp only [tupleBody, tupleStep, hhit, Bool.false_eq_true, if_false, h3, hd]

theorem progressInv_afterTuples (p : PhysicsParams) (vals : List ℚ) (c0 : Int)
    (ts : List IndexTuple) :
    ∀ (n : Nat) (w : WorkerLocal × ThreadSafeResults), ProgressInv c0 n w →
      ProgressInv c0 (n + ts.length) (afterTuples p vals ts w) := by
  induction ts with
  | nil => intro n w h; simpa [afterTuples] using h
  | cons x ts ih =>
    intro n w h
    have h1 := ih (n + 1) (tupleBody p vals x w) (progressInv_tupleBody p vals x c0 n w h)
    have e : n + (x :: ts).length = n + 1 + ts.length := by simp; omega
    rw [e]
    simpa [afterTuples] using h1

/-! ## Workers over the partition -/

theorem loopTuples_eq (t : ThreadIndexes) (N : Nat) :
    loopTuples t N = (rangeIndices t).flatMap (rowTuples N) := rfl

theorem allTuples_eq (N : Nat) : allTuples N = (List.range N).flatMap (rowTuples N) := rfl

theorem AppendResults_results (s : ThreadSafeResults) (b : List Result) :
    (s.AppendResults b).results = s.results ++ b := by
  unfold ThreadSafeResults.AppendResults
  split_ifs with h
  · rw [List.length_eq_zero.mp h, List.append_nil]
  · rfl

theorem AppendResults_count (s : ThreadSafeResults) (b : List Result) :
    (s.AppendResults b).rollingResultsCount = s.rollingResultsCount := by
  unfold ThreadSafeResults.AppendResults
  split_ifs <;> rfl

theorem endIndex_lt_of_mem (N W : Nat) (hN : 0 < N) (hW : 0 < W) (hNs : N < sizeModulus)
    (t : ThreadIndexes) (ht : t ∈ threadIndexes N W) (hse : t.startIndex ≤ t.endIndex) :
    t.endIndex < N := by
  have hmem : t.endIndex ∈ (threadIndexes N W).flatMap rangeIndices := by
    rw [List.mem_flatMap]
    refine ⟨t, ht, ?_⟩
    simp only [rangeIndices, List.mem_range'_1]
    omega
  rw [flatMap_rangeIndices_threadIndexes N W hN hW hNs] at hmem
  exact List.mem_range.mp hmem

theorem blockOf_succ_fields (b n : Nat) (hb : (n + 2) * b < sizeModulus) :
    blockOf b (n + 1) = ⟨(n + 1) * b + 1, (n + 1) * b + b⟩ := by
  have h1 : (n + 2) * b = (n + 1) * b + b := by ring
  have h2 : (n + 1 + 1) * b = (n + 1) * b + b := by ring
  have h3 : (n + 1) * b < sizeModulus := by omega
  have h4 : (n + 1) * b + 1 < sizeModulus := by
    rcases Nat.eq_zero_or_pos b with h0 | h0
    · subst h0; simp [sizeModulus]
    · omega
  have h5 : (n + 1) * b + b < sizeModulus := by omega
  simp only [blockOf, Nat.succ_pos, gt_iff_lt, if_true, h2, Nat.mod_eq_of_lt h3,
    Nat.mod_eq_of_lt h4, Nat.mod_eq_of_lt h5]

theorem bumpLast_last_fields (N k b r : Nat) (hN : 0 < N) (hNs : N < sizeModulus)
    (hsum : (k + 2) * b + r = N) :
    bumpLast r (blockOf b (k + 1)) = ⟨(k + 1) * b + 1, N - 1⟩ := by
  have h1 : (k + 1 + 1) * b = (k + 1) * b + b := by ring
  have h2 : (k + 2) * b = (k + 1) * b + b := by ring
  have hq0 : b = 0 → (k + 1) * b = 0 := by intro h; simp [h]
  have h := bumpLast_arith N b r ((k + 1) * b) hN hNs (by omega) hq0
  simp only [bumpLast, blockOf, sizeModulus, Nat.succ_pos, gt_iff_lt, if_true, h1] at h ⊢
  rw [h.1, h.2]

theorem bumpLast_single_fields (N : Nat) (hN : 0 < N) (hNs : N < sizeModulus) :
    bumpLast 0 (blockOf N 0) = ⟨0, N - 1⟩ := by
  have h := bumpLast_arith N N 0 0 hN hNs (by omega) (by omega)
  simp only [bumpLast, blockOf, sizeModulus, Nat.lt_irrefl, gt_iff_lt, if_false,
    Nat.zero_mul, Nat.zero_add, Nat.one_mul, Nat.zero_mod] at h ⊢
  rw [h.2]

theorem startIndex_le_of_mem (N W : Nat) (hN : 0 < N) (hW : 0 < W) (hNs : N < sizeModulus)
    (t : ThreadIndexes) (ht : t ∈ threadIndexes N W) : t.startIndex ≤ t.endIndex + 1 := by
  obtain ⟨n, rfl⟩ : ∃ n, W = n + 1 := ⟨W - 1, by omega⟩
  have hr : N % (n + 1) < n + 1 := Nat.mod_lt _ (by omega)
  have hdm : (n + 1) * (N / (n + 1)) + N % (n + 1) = N := Nat.div_add_mod N (n + 1)
  have hb : N / (n + 1) ≤ N := Nat.div_le_self _ _
  have e0 : N % (n + 1) / (n + 1) = 0 := Nat.div_eq_of_lt hr
  have e1 : (N / (n + 1) + N % (n + 1) / (n + 1)) % sizeModulus = N / (n + 1) := by
    rw [e0, Nat.add_zero, Nat.mod_eq_of_lt (by omega)]
  have e2 : N % (n + 1) % (n + 1) = N % (n + 1) := Nat.mod_eq_of_lt hr
  rw [threadIndexes_succ, e1, e2, List.mem_append, List.mem_map, List.mem_singleton] at ht
  rcases ht with ⟨i, hi, rfl⟩ | rfl
  · rw [List.mem_range] at hi
    cases i with
    | zero => simp [blockOf]
    | succ j =>
      have hle : (j + 2) * (N / (n + 1)) ≤ (n + 1) * (N / (n + 1)) :=
        Nat.mul_le_mul_right _ (by omega)
      rw [blockOf_succ_fields _ j (by omega)]
      show (j + 1) * (N / (n + 1)) + 1 ≤ (j + 1) * (N / (n + 1)) + N / (n + 1) + 1
      omega
  · cases n with
    | zero =>
      have hN1 : N / (0 + 1) = N := by simp
      have hN0 : N % (0 + 1) = 0 := Nat.mod_one N
      rw [hN1, hN0, bumpLast_single_fields N hN hNs]
      show 0 ≤ N - 1 + 1
      omega
    | succ k =>
      rw [bumpLast_last_fields N k _ _ hN hNs hdm]
      have h2 : (k + 2) * (N / (k + 1 + 1)) =
          (k + 1) * (N / (k + 1 + 1)) + N / (k + 1 + 1) := by ring
      have hq0 : N / (k + 1 + 1) = 0 → (k + 1) * (N / (k + 1 + 1)) = 0 := by
        intro h; simp [h]
      show (k + 1) * (N / (k + 1 + 1)) + 1 ≤ N - 1 + 1
      have hdm2 : (k + 2) * (N / (k + 1 + 1)) + N % (k + 1 + 1) = N := hdm
      rcases Nat.eq_zero_or_pos (N / (k + 1 + 1)) with h0 | h0
      · have := hq0 h0
        omega
      · omega

theorem reserveFails_of_le (t : ThreadIndexes) (N : Nat) (hmax : N ≤ vectorMaxSize)
    (h1 : t.startIndex ≤ t.endIndex + 1) (h2 : t.endIndex + 1 ≤ N + t.startIndex) :
    reserveFails t = false := by
  have hv : vectorMaxSize = 354745078340568300 := by decide
  simp only [reserveFails, decide_eq_false_iff_not, not_lt, sizeModulus]
  omega

theorem workerUndefined_of_mem (N W : Nat) (hN : 0 < N) (hW : 0 < W) (hNs : N < sizeModulus)
    (hmax : N ≤ vectorMaxSize) (vals : List ℚ) (hv : vals.length = N)
    (t : ThreadIndexes) (ht : t ∈ threadIndexes N W) : workerUndefined t vals = false := by
  have hs := startIndex_le_of_mem N W hN hW hNs t ht
  have hM : sizeModulus = 18446744073709551616 := rfl
  by_cases hse : t.startIndex ≤ t.endIndex
  · have h := endIndex_lt_of_mem N W hN hW hNs t ht hse
    have hr := reserveFails_of_le t N hmax hs (by omega)
    simp only [workerUndefined, hr, Bool.false_or, hv, Bool.and_eq_false_imp,
      decide_eq_true_eq, Bool.or_eq_false_iff, decide_eq_false_iff_not,
      Bool.and_eq_false_iff]
    intro _
    constructor
    · omega
    · intro _; omega
  · have hr := reserveFails_of_le t N hmax hs (by omega)
    simp [workerUndefined, hr, hse]

theorem calculateResistorCombinations_defined (p : PhysicsParams) (t : ThreadIndexes)
    (vals : List ℚ) (s : ThreadSafeResults) (h : workerUndefined t vals = false) :
    ∃ s1, calculateResistorCombinations p t vals s = some s1 ∧
      s1.results = s.results ++ workerOutput p vals t := by
  refine ⟨(workerLoops p t vals (WorkerLocal.initial, s)).2.AppendResults
    (workerLoops p t vals (WorkerLocal.initial, s)).1.localResults, ?_, ?_⟩
  · simp only [calculateResistorCombinations, workerRun, h, Bool.false_eq_true, if_false,
      Option.map_some']
  · rw [AppendResults_results, workerLoops_eq_afterTuples, afterTuples_results,
      afterTuples_localResults]
    simp [WorkerLocal.initial, workerOutput]

theorem runWorkers_defined (p : PhysicsParams) (vals : List ℚ) (order : List ThreadIndexes) :
    ∀ s : ThreadSafeResults, (∀ t ∈ order, workerUndefined t vals = false) →
      ∃ s1, runWorkers p vals order s = some s1 ∧
        s1.results = s.results ++ order.flatMap (workerOutput p vals) := by
  induction order with
  | nil => intro s _; exact ⟨s, rfl, by simp⟩
  | cons t rest ih =>
    intro s h
    obtain ⟨s1, h1, h2⟩ :=
      calculateResistorCombinations_defined p t vals s (h t (List.mem_cons_self _ _))
    obtain ⟨s2, h3, h4⟩ := ih s1 (fun u hu => h u (List.mem_cons_of_mem _ hu))
    refine ⟨s2, ?_, ?_⟩
    · simp only [runWorkers, h1, h3]
    · rw [h4, h2, List.flatMap_cons, List.append_assoc]

theorem flatMap_workerOutput (p : PhysicsParams) (vals : List ℚ) (l : List ThreadIndexes) :
    l.flatMap (workerOutput p vals) =
      (((l.flatMap rangeIndices).flatMap (rowTuples vals.length)).filter
        (feasibleAt p vals)).map (recordAt p vals) := by
  induction l with
  | nil => rfl
  | cons t l ih =>
    simp only [List.flatMap_cons, List.flatMap_append, List.filter_append, List.map_append, ih]
    rfl

theorem flatMap_workerOutput_threadIndexes (p : PhysicsParams) (vals : List ℚ) (W : Nat)
    (hN : 0 < vals.length) (hW : 0 < W) (hNs : vals.length < sizeModulus) :
    (threadIndexes vals.length W).flatMap (workerOutput p vals) =
      ((allTuples vals.length).filter (feasibleAt p vals)).map (recordAt p vals) := by
  rw [flatMap_workerOutput, flatMap_rangeIndices_threadIndexes _ W hN hW hNs, allTuples_eq]

/-! ## The index cube -/

theorem mem_rowTuples (N i : Nat) (x : IndexTuple) :
    x ∈ rowTuples N i ↔ x.i = i ∧ x.j < N ∧ x.k < N ∧ x.l < N ∧ x.m < N := by
  simp only [rowTuples, List.mem_flatMap, List.mem_map, List.mem_range]
  constructor
  · rintro ⟨j, hj, k, hk, l, hl, m, hm, rfl⟩
    exact ⟨rfl, hj, hk, hl, hm⟩
  · rintro ⟨rfl, hj, hk, hl, hm⟩
    exact ⟨x.j, hj, x.k, hk, x.l, hl, x.m, hm, rfl⟩

theorem mem_allTuples (N : Nat) (x : IndexTuple) :
    x ∈ allTuples N ↔ x.i < N ∧ x.j < N ∧ x.k < N ∧ x.l < N ∧ x.m < N := by
  rw [allTuples_eq, List.mem_flatMap]
  constructor
  · rintro ⟨i, hi, hx⟩
    rw [mem_rowTuples] at hx
    rw [List.mem_range] at hi
    exact ⟨hx.1 ▸ hi, hx.2⟩
  · rintro ⟨hi, h⟩
    exact ⟨x.i, List.mem_range.mpr hi, (mem_rowTuples N x.i x).mpr ⟨rfl, h⟩⟩

theorem nodup_flatMap_of_key {α β : Type} (key : β → α) (f : α → List β) (l : List α)
    (hl : l.Nodup) (hf : ∀ a ∈ l, (f a).Nodup) (hk : ∀ a ∈ l, ∀ b ∈ f a, key b = a) :
    (l.flatMap f).Nodup := by
  rw [List.nodup_flatMap]
  refine ⟨hf, ?_⟩
  refine List.Pairwise.imp_of_mem ?_ hl
  intro a b ha hb hab c hca hcb
  exact hab ((hk a ha c hca).symm.trans (hk b hb c hcb))

theorem nodup_allTuples (N : Nat) : (allTuples N).Nodup := by
  unfold allTuples
  refine nodup_flatMap_of_key IndexTuple.i _ _ (List.nodup_range N) ?_ ?_
  · intro i _
    refine nodup_flatMap_of_key IndexTuple.j _ _ (List.nodup_range N) ?_ ?_
    · intro j _
      refine nodup_flatMap_of_key IndexTuple.k _ _ (List.nodup_range N) ?_ ?_
      · intro k _
        refine nodup_flatMap_of_key IndexTuple.l _ _ (List.nodup_range N) ?_ ?_
        · intro l _
          refine List.Nodup.map ?_ (List.nodup_range N)
          intro m m1 h
          simpa using h
        · intro l _ b hb
          simp only [List.mem_map] at hb
          obtain ⟨m, _, rfl⟩ := hb
          rfl
      · intro k _ b hb
        simp only [List.mem_flatMap, List.mem_map] at hb
        obtain ⟨l, _, m, _, rfl⟩ := hb
        rfl
    · intro j _ b hb
      simp only [List.mem_flatMap, List.mem_map] at hb
      obtain ⟨k, _, l, _, m, _, rfl⟩ := hb
      rfl
  · intro i _ b hb
    simp only [List.mem_flatMap, List.mem_map] at hb
    obtain ⟨j, _, k, _, l, _, m, _, rfl⟩ := hb
    rfl

/-! ## Ranking -/

theorem perm_stdSort (comp : Result → Result → Bool) (l : List Result) :
    (stdSort comp l).Perm l :=
  List.perm_insertionSort _ l

/-! ## The reported total -/

theorem excessBits_of_lt (fuel x : Nat) (h : x < 9007199254740992) :
    excessBits fuel x = 0 := by
  cases fuel with
  | zero => rfl
  | succ f => simp [excessBits, h]

theorem roundToDouble_of_lt (x : Nat) (h : x < 9007199254740992) : roundToDouble x = x := by
  simp [roundToDouble, excessBits_of_lt _ x h, Nat.mod_one]

theorem powFive_of_lt (roundUp : Nat → Bool) (x : Nat) (h : x ^ 5 < 9007199254740992) :
    powFive roundUp x = x ^ 5 := by
  simp [powFive, excessBits_of_lt _ _ h, Nat.mod_one]


theorem tupleStep_accept (p : PhysicsParams) (R R1 R2 R3 R4 : ℚ)
    (w : WorkerLocal × ThreadSafeResults) (h : specAccepts p R R1 R2 R3 R4) :
    (tupleStep p R R1 R2 R3 R4 w).1.localResults =
      w.1.localResults ++ [specRecord p R R1 R2 R3 R4] := by
  rcases evaluateTuple_eq p R R1 R2 R3 R4 w.1.tempResult with ⟨_, he⟩ | ⟨ha, _⟩
  · simp only [tupleStep, he, if_true]
  · exact absurd h ha

theorem tupleStep_reject (p : PhysicsParams) (R R1 R2 R3 R4 : ℚ)
    (w : WorkerLocal × ThreadSafeResults) (h : ¬ specAccepts p R R1 R2 R3 R4) :
    (tupleStep p R R1 R2 R3 R4 w).1.localResults = w.1.localResults := by
  rcases evaluateTuple_eq p R R1 R2 R3 R4 w.1.tempResult with ⟨ha, _⟩ | ⟨_, he⟩
  · exact absurd ha h
  · simp only [tupleStep, he, Bool.false_eq_true, if_false]

theorem tupleStep_results (p : PhysicsParams) (R R1 R2 R3 R4 : ℚ)
    (w : WorkerLocal × ThreadSafeResults) :
    (tupleStep p R R1 R2 R3 R4 w).2.results = w.2.results := by
  simp only [tupleStep]
  split_ifs <;> rfl

/-! ## The counter in concurrent runs -/

theorem tupleStep_iterations (p : PhysicsParams) (R R1 R2 R3 R4 : ℚ)
    (w : WorkerLocal × ThreadSafeResults) :
    (tupleStep p R R1 R2 R3 R4 w).1.iterations = w.1.iterations + 1 := rfl

theorem tupleStep_count (p : PhysicsParams) (R R1 R2 R3 R4 : ℚ)
    (w : WorkerLocal × ThreadSafeResults) (h0 : 0 ≤ w.1.iterations) :
    (tupleStep p R R1 R2 R3 R4 w).2.rollingResultsCount =
      w.2.rollingResultsCount + batchSize * ((w.1.iterations + 1) / 10000000) -
        batchSize * (w.1.iterations / 10000000) := by
  have ht : Int.tmod (w.1.iterations + 1) batchSize = (w.1.iterations + 1) % 10000000 :=
    Int.tmod_eq_emod (by omega) (by decide)
  by_cases hz : (w.1.iterations + 1) % 10000000 = 0
  · have hhit : decide (Int.tmod (w.1.iterations + 1) batchSize = 0) = true := by
      rw [ht]; exact decide_eq_true hz
    simp only [tupleStep, hhit, if_true, ThreadSafeResults.UpdateRollingResultsCount]
    simp only [batchSize]
    omega
  · have hhit : decide (Int.tmod (w.1.iterations + 1) batchSize = 0) = false := by
      rw [ht]; exact decide_eq_false hz
    simp only [tupleStep, hhit, Bool.false_eq_true, if_false]
    simp only [batchSize]
    omega

theorem tupleStep_count_le (p : PhysicsParams) (R R1 R2 R3 R4 : ℚ)
    (w : WorkerLocal × ThreadSafeResults) :
    w.2.rollingResultsCount ≤ (tupleStep p R R1 R2 R3 R4 w).2.rollingResultsCount := by
  simp only [tupleStep]
  split_ifs
  · simp only [ThreadSafeResults.UpdateRollingResultsCount, batchSize]
    omega
  · exact le_refl _

theorem workerStep_count_le (p : PhysicsParams) (vals : List ℚ) (s s1 : SystemState)
    (k : Nat) (h : workerStep p vals s k = some s1) :
    s.sharedResults.rollingResultsCount ≤ s1.sharedResults.rollingResultsCount := by
  unfold workerStep at h
  split at h
  · simp at h
  · split at h
    · simp only [Option.some.injEq] at h
      rw [← h]
      simp only [tupleBody]
      apply tupleStep_count_le
    · split_ifs at h
      simp only [Option.some.injEq] at h
      rw [← h]
      exact le_of_eq (AppendResults_count _ _).symm

theorem sum_map_set (f : WorkerProc → Int) (l : List WorkerProc) :
    ∀ (k : Nat) (wp a : WorkerProc), l.get? k = some wp →
      ((l.set k a).map f).sum = (l.map f).sum - f wp + f a := by
  induction l with
  | nil => intro k wp a h; simp at h
  | cons b l ih =>
    intro k wp a h
    cases k with
    | zero =>
      simp only [List.get?_cons_zero, Option.some.injEq] at h
      subst h
      simp only [List.set_cons_zero, List.map_cons, List.sum_cons]
      omega
    | succ k =>
      simp only [List.get?_cons_succ] at h
      simp only [List.set_cons_succ, List.map_cons, List.sum_cons, ih k wp a h]
      omega

theorem mem_set_cases (l : List WorkerProc) (k : Nat) (a wp : WorkerProc)
    (h : wp ∈ l.set k a) : wp ∈ l ∨ wp = a := by
  rcases List.mem_or_eq_of_mem_set h with h1 | h1
  · exact Or.inl h1
  · exact Or.inr h1

theorem length_rowTuples (N i : Nat) : (rowTuples N i).length = N ^ 4 := by
  simp only [rowTuples, List.length_flatMap, List.length_map, List.length_range,
    Function.comp_def, List.map_const', List.sum_replicate, smul_eq_mul]
  ring

theorem length_allTuples (N : Nat) : (allTuples N).length = N ^ 5 := by
  simp only [allTuples_eq, List.length_flatMap, Function.comp_def, length_rowTuples,
    List.map_const', List.length_range, List.sum_replicate, smul_eq_mul]
  ring

theorem sum_workload_launch (N : Nat) (l : List ThreadIndexes) :
    ((l.map (launchWorker N)).map workload).sum =
      (((l.flatMap rangeIndices).flatMap (rowTuples N)).length : Int) := by
  induction l with
  | nil => simp
  | cons t l ih =>
    simp only [List.map_cons, List.sum_cons, ih, List.flatMap_cons, List.flatMap_append,
      List.length_append, workload, launchWorker, WorkerLocal.initial, loopTuples_eq]
    push_cast
    ring

theorem sum_contribution_launch (N : Nat) (l : List ThreadIndexes) :
    ((l.map (launchWorker N)).map contribution).sum = 0 := by
  induction l with
  | nil => simp
  | cons t l ih =>
    simp only [List.map_cons, List.sum_cons, ih, contribution, launchWorker,
      WorkerLocal.initial]
    simp

theorem systemInv_launch (c0 : Int) (N W : Nat) (hN : 0 < N) (hW : 0 < W)
    (hNs : N < sizeModulus) : SystemInv c0 N (initialSystem N W c0) := by
  refine ⟨?_, ?_, ?_⟩
  · simp only [initialSystem, sum_contribution_launch, ThreadSafeResults.defaultConstructed,
      add_zero]
  · intro wp hwp
    simp only [initialSystem, List.mem_map] at hwp
    obtain ⟨t, _, rfl⟩ := hwp
    exact le_refl _
  · simp only [initialSystem, sum_workload_launch,
      flatMap_rangeIndices_threadIndexes N W hN hW hNs]
    rw [← allTuples_eq, length_allTuples]

theorem systemInv_step (p : PhysicsParams) (vals : List ℚ) (c0 : Int) (N : Nat)
    (s s1 : SystemState) (k : Nat) (hs : SystemInv c0 N s)
    (h : workerStep p vals s k = some s1) : SystemInv c0 N s1 := by
  obtain ⟨h1, h2, h3⟩ := hs
  unfold workerStep at h
  split at h
  · simp at h
  · rename_i wp hget
    have hmem : wp ∈ s.workers := List.get?_mem hget
    have hnn := h2 wp hmem
    split at h
    · rename_i x rest hpend
      simp only [Option.some.injEq] at h
      subst h
      refine ⟨?_, ?_, ?_⟩
      · simp only [sum_map_set contribution s.workers k wp _ hget, contribution, tupleBody]
        rw [tupleStep_count _ _ _ _ _ _ _ hnn, tupleStep_iterations, h1]
        simp only [contribution]
        ring
      · intro a ha
        rcases mem_set_cases _ _ _ _ ha with ha | ha
        · exact h2 a ha
        · subst ha
          simp only [tupleBody, tupleStep_iterations]
          omega
      · simp only [sum_map_set workload s.workers k wp _ hget, workload, tupleBody,
          tupleStep_iterations]
        rw [← h3]
        simp only [workload, hpend, List.length_cons]
        push_cast
        ring
    · rename_i hpend
      split_ifs at h
      simp only [Option.some.injEq] at h
      subst h
      refine ⟨?_, ?_, ?_⟩
      · simp only [sum_map_set contribution s.workers k wp _ hget, contribution,
          AppendResults_count, h1]
        ring
      · intro a ha
        rcases mem_set_cases _ _ _ _ ha with ha | ha
        · exact h2 a ha
        · subst ha
          exact hnn
      · simp only [sum_map_set workload s.workers k wp _ hget, workload]
        rw [← h3]
        ring

theorem systemInv_reachable (p : PhysicsParams) (vals : List ℚ) (W : Nat) (c0 : Int)
    (hN : 0 < vals.length) (hW : 0 < W) (hNs : vals.length < sizeModulus)
    (s : SystemState) (hr : Reachable p vals W c0 s) : SystemInv c0 vals.length s := by
  induction hr with
  | launch => exact systemInv_launch c0 vals.length W hN hW hNs
  | step s s1 k _ hstep ih => exact systemInv_step p vals c0 vals.length s s1 k ih hstep

theorem sum_contribution_bounds (l : List WorkerProc)
    (h : ∀ wp ∈ l, 0 ≤ wp.locals.iterations) :
    0 ≤ (l.map contribution).sum ∧ (l.map contribution).sum ≤ (l.map workload).sum := by
  induction l with
  | nil => simp
  | cons a l ih =>
    have ha := h a (List.mem_cons_self _ _)
    have hl := ih (fun wp hwp => h wp (List.mem_cons_of_mem _ hwp))
    simp only [List.map_cons, List.sum_cons, contribution, workload, batchSize] at hl ⊢
    constructor <;> omega

/-- With the counter at `c0` at the launch, every state of a run has the counter between
`c0` and `c0 + N^5`. -/
theorem counter_bounds_from_launch (p : PhysicsParams) (vals : List ℚ) (W : Nat) (c0 : Int)
    (hN : 0 < vals.length) (hW : 0 < W) (hNs : vals.length < sizeModulus)
    (s : SystemState) (hr : Reachable p vals W c0 s) :
    c0 ≤ s.sharedResults.rollingResultsCount ∧
      s.sharedResults.rollingResultsCount ≤ c0 + ((vals.length ^ 5 : Nat) : Int) := by
  obtain ⟨h1, h2, h3⟩ := systemInv_reachable p vals W c0 hN hW hNs s hr
  have hb := sum_contribution_bounds s.workers h2
  rw [h3] at hb
  constructor <;> omega

/-! ## The worker in rounded arithmetic -/

theorem codeCurrentRounded_eq_ref (fl : ℚ → ℚ) (p : PhysicsParams) (R R1 R2 R3 R4 : ℚ)
    (s : SwitchState) :
    codeCurrentRounded fl p R R1 R2 R3 R4 s = refCurrent fl p R R1 R2 R3 R4 s := by
  cases s <;> rfl

theorem codeVoltageErrorRounded_eq_ref (fl : ℚ → ℚ) (p : PhysicsParams) (R R1 R2 R3 R4 : ℚ)
    (s : SwitchState) :
    codeVoltageErrorRounded fl p R R1 R2 R3 R4 s = refVoltageError fl p R R1 R2 R3 R4 s := by
  cases s <;> rfl

theorem refAccepts_iff (fl : ℚ → ℚ) (p : PhysicsParams) (R R1 R2 R3 R4 : ℚ) :
    refAccepts fl p R R1 R2 R3 R4 ↔
      currentRejected p (refCurrent fl p R R1 R2 R3 R4 .s00) = false ∧
      currentRejected p (refCurrent fl p R R1 R2 R3 R4 .s01) = false ∧
      currentRejected p (refCurrent fl p R R1 R2 R3 R4 .s10) = false ∧
      currentRejected p (refCurrent fl p R R1 R2 R3 R4 .s11) = false ∧
      errorRejected p (refVoltageError fl p R R1 R2 R3 R4 .s00) = false ∧
      errorRejected p (refVoltageError fl p R R1 R2 R3 R4 .s01) = false ∧
      errorRejected p (refVoltageError fl p R R1 R2 R3 R4 .s10) = false ∧
      errorRejected p (refVoltageError fl p R R1 R2 R3 R4 .s11) = false := by
  simp only [refAccepts, currentRejected, errorRejected, Bool.or_eq_false_iff,
    decide_eq_false_iff_not, not_lt, gt_iff_lt]
  constructor
  · intro h
    exact ⟨h.1 .s00, h.1 .s01, h.1 .s10, h.1 .s11, h.2 .s00, h.2 .s01, h.2 .s10, h.2 .s11⟩
  · rintro ⟨h1, h2, h3, h4, h5, h6, h7, h8⟩
    exact ⟨fun s => by cases s <;> assumption, fun s => by cases s <;> assumption⟩

theorem evaluateTupleRounded_eq (fl : ℚ → ℚ) (p : PhysicsParams) (R R1 R2 R3 R4 : ℚ)
    (t0 : Result) :
    (refAccepts fl p R R1 R2 R3 R4 ∧
        evaluateTupleRounded fl p R R1 R2 R3 R4 t0 = (refRecord fl p R R1 R2 R3 R4, true)) ∨
      (¬ refAccepts fl p R R1 R2 R3 R4 ∧
        (evaluateTupleRounded fl p R R1 R2 R3 R4 t0).2 = false) := by
  rw [refAccepts_iff]
  simp only [evaluateTupleRounded, codeCurrentRounded_eq_ref, codeVoltageErrorRounded_eq_ref]
  split_ifs <;> simp_all [refRecord]

theorem evaluateTupleRounded_id (p : PhysicsParams) (R R1 R2 R3 R4 : ℚ) (t0 : Result) :
    evaluateTupleRounded id p R R1 R2 R3 R4 t0 = evaluateTuple p R R1 R2 R3 R4 t0 := by
  have hc : ∀ s, codeCurrentRounded id p R R1 R2 R3 R4 s = codeCurrent p R R1 R2 R3 R4 s := by
    intro s; cases s <;> rfl
  have he : ∀ s, codeVoltageErrorRounded id p R R1 R2 R3 R4 s =
      codeVoltageError p R R1 R2 R3 R4 s := by
    intro s; cases s <;> rfl
  simp only [evaluateTupleRounded, evaluateTuple, hc, he]

theorem tupleStepRounded_localResults (fl : ℚ → ℚ) (p : PhysicsParams) (R R1 R2 R3 R4 : ℚ)
    (w : WorkerLocal × ThreadSafeResults) :
    (tupleStepRounded fl p R R1 R2 R3 R4 w).1.localResults =
      w.1.localResults ++
        if refAccepts fl p R R1 R2 R3 R4 then [refRecord fl p R R1 R2 R3 R4] else [] := by
  rcases evaluateTupleRounded_eq fl p R R1 R2 R3 R4 w.1.tempResult with ⟨ha, he⟩ | ⟨ha, he⟩
  · simp only [tupleStepRounded, ha, he, if_true]
  · simp only [tupleStepRounded, ha, he, Bool.false_eq_true, if_false, List.append_nil]

theorem tupleStepRounded_results (fl : ℚ → ℚ) (p : PhysicsParams) (R R1 R2 R3 R4 : ℚ)
    (w : WorkerLocal × ThreadSafeResults) :
    (tupleStepRounded fl p R R1 R2 R3 R4 w).2.results = w.2.results := by
  simp only [tupleStepRounded]
  split_ifs <;> rfl

theorem tupleBodyRounded_localResults (fl : ℚ → ℚ) (p : PhysicsParams) (vals : List ℚ)
    (x : IndexTuple) (w : WorkerLocal × ThreadSafeResults) :
    (tupleBodyRounded fl p vals x w).1.localResults =
      w.1.localResults ++ if passesAt fl p vals x then [refRecordAt fl p vals x] else [] := by
  simp only [tupleBodyRounded, tupleStepRounded_localResults, passesAt, refRecordAt,
    decide_eq_true_eq]

theorem afterTuplesRounded_localResults (fl : ℚ → ℚ) (p : PhysicsParams) (vals : List ℚ)
    (ts : List IndexTuple) :
    ∀ w : WorkerLocal × ThreadSafeResults,
      (afterTuplesRounded fl p vals ts w).1.localResults =
        w.1.localResults ++ (ts.filter (passesAt fl p vals)).map (refRecordAt fl p vals) := by
  induction ts with
  | nil => intro w; simp [afterTuplesRounded]
  | cons x ts ih =>
    intro w
    have h := ih (tupleBodyRounded fl p vals x w)
    simp only [afterTuplesRounded, List.foldl_cons] at h ⊢
    rw [h, tupleBodyRounded_localResults, List.filter_cons]
    by_cases hf : passesAt fl p vals x = true <;> simp [hf]

theorem afterTuplesRounded_results (fl : ℚ → ℚ) (p : PhysicsParams) (vals : List ℚ)
    (ts : List IndexTuple) :
    ∀ w : WorkerLocal × ThreadSafeResults,
      (afterTuplesRounded fl p vals ts w).2.results = w.2.results := by
  induction ts with
  | nil => intro w; rfl
  | cons x ts ih =>
    intro w
    have h := ih (tupleBodyRounded fl p vals x w)
    simp only [afterTuplesRounded, List.foldl_cons] at h ⊢
    rw [h]
    exact tupleStepRounded_results fl p _ _ _ _ _ w

theorem workerLoopsRounded_eq (fl : ℚ → ℚ) (p : PhysicsParams) (t : ThreadIndexes)
    (vals : List ℚ) (w : WorkerLocal × ThreadSafeResults) :
    workerLoopsRounded fl p t vals w =
      afterTuplesRounded fl p vals (loopTuples t vals.length) w := by
  simp only [workerLoopsRounded, afterTuplesRounded, loopTuples, foldl_flatMap_eq,
    List.foldl_map]

theorem calculateRounded_defined (fl : ℚ → ℚ) (p : PhysicsParams) (t : ThreadIndexes)
    (vals : List ℚ) (s : ThreadSafeResults) (h : workerUndefined t vals = false) :
    ∃ s1, calculateResistorCombinationsRounded fl p t vals s = some s1 ∧
      s1.results = s.results ++ workerOutputRounded fl p vals t := by
  refine ⟨(workerLoopsRounded fl p t vals (WorkerLocal.initial, s)).2.AppendResults
    (workerLoopsRounded fl p t vals (WorkerLocal.initial, s)).1.localResults, ?_, ?_⟩
  · simp only [calculateResistorCombinationsRounded, h, Bool.false_eq_true, if_false]
  · rw [AppendResults_results, workerLoopsRounded_eq, afterTuplesRounded_results,
      afterTuplesRounded_localResults]
    simp [WorkerLocal.initial, workerOutputRounded]

theorem runWorkersRounded_defined (fl : ℚ → ℚ) (p : PhysicsParams) (vals : List ℚ)
    (order : List ThreadIndexes) :
    ∀ s : ThreadSafeResults, (∀ t ∈ order, workerUndefined t vals = false) →
      ∃ s1, runWorkersRounded fl p vals order s = some s1 ∧
        s1.results = s.results ++ order.flatMap (workerOutputRounded fl p vals) := by
  induction order with
  | nil => intro s _; exact ⟨s, rfl, by simp⟩
  | cons t rest ih =>
    intro s h
    obtain ⟨s1, h1, h2⟩ :=
      calculateRounded_defined fl p t vals s (h t (List.mem_cons_self _ _))
    obtain ⟨s2, h3, h4⟩ := ih s1 (fun u hu => h u (List.mem_cons_of_mem _ hu))
    refine ⟨s2, ?_, ?_⟩
    · simp only [runWorkersRounded, h1, h3]
    · rw [h4, h2, List.flatMap_cons, List.append_assoc]

theorem flatMap_workerOutputRounded (fl : ℚ → ℚ) (p : PhysicsParams) (vals : List ℚ)
    (l : List ThreadIndexes) :
    l.flatMap (workerOutputRounded fl p vals) =
      (((l.flatMap rangeIndices).flatMap (rowTuples vals.length)).filter
        (passesAt fl p vals)).map (refRecordAt fl p vals) := by
  induction l with
  | nil => rfl
  | cons t l ih =>
    simp only [List.flatMap_cons, List.flatMap_append, List.filter_append, List.map_append, ih]
    rfl

/-! ## Values of `roundToFloat` -/

theorem roundToFloat_zero : roundToFloat 0 = 0 := by
  simp [roundToFloat]

theorem roundToFloat_zpow (z : Int) (hz : -126 ≤ z) :
    roundToFloat ((2 : ℚ) ^ z) = 2 ^ z := by
  have hpos : (0 : ℚ) < 2 ^ z := zpow_pos (by norm_num) z
  have hlog : Int.log 2 ((2 : ℚ) ^ z) = z := by
    have := Int.log_zpow (R := ℚ) (b := 2) (by norm_num) z
    simpa using this
  have he : max (z - 23) (-149) = z - 23 := max_eq_left (by omega)
  have hy : (2 : ℚ) ^ z / 2 ^ (z - 23) = 8388608 := by
    rw [← zpow_sub₀ (by norm_num : (2 : ℚ) ≠ 0)]
    have : z - (z - 23) = 23 := by omega
    rw [this]
    norm_num
  have hfl : ⌊(8388608 : ℚ)⌋ = 8388608 := by
    rw [Int.floor_eq_iff]
    norm_num
  have hnn : ¬ ((2 : ℚ) ^ z < 0) := not_lt.mpr hpos.le
  simp only [roundToFloat, abs_of_pos hpos, hlog, he, hy, hfl]
  simp only [hnn, if_false]
  norm_num
  have h2 : (2 : ℚ) ^ z = 2 ^ (z - 23) * 2 ^ (23 : ℤ) := by
    rw [← zpow_add₀ (by norm_num : (2 : ℚ) ≠ 0)]
    congr 1
    omega
  rw [h2]
  norm_num
  ring

theorem roundToFloat_one : roundToFloat 1 = 1 := by
  have h := roundToFloat_zpow 0 (by decide)
  simpa using h

theorem roundToFloat_two : roundToFloat 2 = 2 := by
  have h := roundToFloat_zpow 1 (by decide)
  simpa using h

theorem roundToFloat_four : roundToFloat 4 = 4 := by
  have h := roundToFloat_zpow 2 (by decide)
  norm_num at h
  exact h

theorem roundToFloat_half : roundToFloat (1 / 2) = 1 / 2 := by
  have h := roundToFloat_zpow (-1) (by decide)
  norm_num at h
  exact h

theorem roundToFloat_quarter : roundToFloat (1 / 4) = 1 / 4 := by
  have h := roundToFloat_zpow (-2) (by decide)
  norm_num at h
  exact h

theorem roundToFloat_tie : roundToFloat (1 + 1 / 16777216) = 1 := by
  have hpos : (0 : ℚ) < 1 + 1 / 16777216 := by norm_num
  have hlog : Int.log 2 ((1 : ℚ) + 1 / 16777216) = 0 := by
    apply le_antisymm
    · have h := (Int.lt_zpow_iff_log_lt (R := ℚ) (b := 2) (by norm_num) (x := 1) hpos).mp
        (by norm_num)
      omega
    · exact (Int.zpow_le_iff_le_log (R := ℚ) (b := 2) (by norm_num) (x := 0) hpos).mp
        (by norm_num)
  have hfl : ⌊((1 : ℚ) + 1 / 16777216) / 2 ^ (-23 : ℤ)⌋ = 8388608 := by
    rw [Int.floor_eq_iff]
    norm_num
  simp only [roundToFloat, abs_of_pos hpos, hlog]
  norm_num [hfl]

theorem refAccepts_dyadic : refAccepts roundToFloat dyadicInputs 1 2 2 2 2 := by
  have hc : ∀ s, refCurrent roundToFloat dyadicInputs 1 2 2 2 2 s = 1 := by
    intro s
    cases s <;>
      norm_num [refCurrent, legPair, dyadicInputs, roundToFloat_half, roundToFloat_one,
        roundToFloat_two]
  have he : ∀ s, refVoltageError roundToFloat dyadicInputs 1 2 2 2 2 s = 0 := by
    intro s
    cases s <;>
      norm_num [refVoltageError, legPair, dyadicInputs, target, roundToFloat_half,
        roundToFloat_one, roundToFloat_two, roundToFloat_four, roundToFloat_zero]
  refine ⟨fun s => ?_, fun s => ?_⟩
  · rw [hc s]; norm_num [dyadicInputs]
  · rw [he s]; norm_num [dyadicInputs]

/-! ## Main results -/

/-- C1 (partition completeness). For a value set of length `N > 0` (a `size_t`) and
`W > 0` workers, `threadIndexes` has `W` entries, the indices visited by the workers'
outer loops, taken range after range, are `0, 1, ..., N-1` in this order, and every index
`x` is covered by exactly one range when `x < N` and by none otherwise. For `N = 257` and
`W = 24` the ranges are `[0,10], [11,20], ..., [231,256]`. -/
theorem partition_completeness (N W : Nat) (hN : 0 < N) (hW : 0 < W)
    (hNs : N < sizeModulus) :
    (threadIndexes N W).length = W ∧
      (threadIndexes N W).flatMap rangeIndices = List.range N ∧
      (∀ x, (threadIndexes N W).countP (covers x) = if x < N then 1 else 0) ∧
      threadIndexes 257 24 =
        [⟨0, 10⟩, ⟨11, 20⟩, ⟨21, 30⟩, ⟨31, 40⟩, ⟨41, 50⟩, ⟨51, 60⟩, ⟨61, 70⟩, ⟨71, 80⟩,
         ⟨81, 90⟩, ⟨91, 100⟩, ⟨101, 110⟩, ⟨111, 120⟩, ⟨121, 130⟩, ⟨131, 140⟩,
         ⟨141, 150⟩, ⟨151, 160⟩, ⟨161, 170⟩, ⟨171, 180⟩, ⟨181, 190⟩, ⟨191, 200⟩,
         ⟨201, 210⟩, ⟨211, 220⟩, ⟨221, 230⟩, ⟨231, 256⟩] := by
  refine ⟨length_threadIndexes N W hW, flatMap_rangeIndices_threadIndexes N W hN hW hNs,
    ?_, by decide⟩
  intro x
  rw [countP_covers_eq_count, flatMap_rangeIndices_threadIndexes N W hN hW hNs, count_range]

/-- Witness of C1 at `N = 257`, `W = 24`. -/
theorem partition_completeness_witness :
    (0 < 257 ∧ 0 < 24 ∧ 257 < sizeModulus) ∧
      (threadIndexes 257 24).length = 24 ∧
      (threadIndexes 257 24).flatMap rangeIndices = List.range 257 :=
  ⟨⟨by decide, by decide, by decide⟩,
    (partition_completeness 257 24 (by decide) (by decide) (by decide)).1,
    (partition_completeness 257 24 (by decide) (by decide) (by decide)).2.1⟩

/-- C3 (filter correctness). For positive resistances `R, R1, R2, R3, R4` and any
constraints, whatever the worker's state, the loop body reaches `push_back` if and only if
all four currents lie in `[minimumCurrent, maximumCurrent]` and all four relative voltage
errors are at most `allowableError`; then exactly one record is appended to
`localResults`; otherwise `localResults` and the stored results are left as they were. -/
theorem filter_correctness (p : PhysicsParams) (R R1 R2 R3 R4 : ℚ)
    (_hR : 0 < R) (_hR1 : 0 < R1) (_hR2 : 0 < R2) (_hR3 : 0 < R3) (_hR4 : 0 < R4)
    (w : WorkerLocal × ThreadSafeResults) :
    ((evaluateTuple p R R1 R2 R3 R4 w.1.tempResult).2 = true ↔
        ((∀ s, p.minimumCurrent ≤ specCurrent p R R1 R2 R3 R4 s ∧
            specCurrent p R R1 R2 R3 R4 s ≤ p.maximumCurrent) ∧
          ∀ s, specVoltageError p R R1 R2 R3 R4 s ≤ p.allowableError)) ∧
      (tupleStep p R R1 R2 R3 R4 w).1.localResults =
        (if (evaluateTuple p R R1 R2 R3 R4 w.1.tempResult).2
          then w.1.localResults ++ [(evaluateTuple p R R1 R2 R3 R4 w.1.tempResult).1]
          else w.1.localResults) ∧
      (tupleStep p R R1 R2 R3 R4 w).2.results = w.2.results := by
  refine ⟨?_, rfl, tupleStep_results p R R1 R2 R3 R4 w⟩
  rcases evaluateTuple_eq p R R1 R2 R3 R4 w.1.tempResult with ⟨ha, he⟩ | ⟨ha, he⟩
  · rw [he]
    exact ⟨fun _ => ha, fun _ => rfl⟩
  · rw [he]
    exact ⟨fun h => absurd h (by simp), fun h => absurd h ha⟩

/-- Witness of C3: the tuple of the example scenario under the inputs of `main`, in the
worker's initial state. -/
theorem filter_correctness_witness :
    ((evaluateTuple mainInputs 1000 1000 15000 2000 91000 zeroResult).2 = true ↔
      ((∀ s,
          mainInputs.minimumCurrent ≤ specCurrent mainInputs 1000 1000 15000 2000 91000 s ∧
          specCurrent mainInputs 1000 1000 15000 2000 91000 s ≤ mainInputs.maximumCurrent) ∧
        ∀ s, specVoltageError mainInputs 1000 1000 15000 2000 91000 s ≤
          mainInputs.allowableError)) :=
  (filter_correctness mainInputs 1000 1000 15000 2000 91000 (by norm_num) (by norm_num)
    (by norm_num) (by norm_num) (by norm_num)
    (WorkerLocal.initial, ThreadSafeResults.defaultConstructed 0)).1

/-- C7, as stated, fails: for `N = 1553` the fifth power `9033525579302993` fits in a
signed 64-bit integer but is odd and larger than `2^53`, so no `double` holds it, and
`totalCombinations` is one of its two even neighbours, whichever way `pow` rounds. -/
theorem count_identity_counterexample :
    totalCombinations (fun _ => true) 1553 = some 9033525579302994 ∧
      totalCombinations (fun _ => false) 1553 = some 9033525579302992 ∧
      (1553 : Int) ^ 5 = 9033525579302993 ∧
      (1553 : Int) ^ 5 < 9223372036854775808 := by
  refine ⟨by decide, by decide, by norm_num, by norm_num⟩

/-- C7, amended (count identity). For every value-set length `N` whose fifth power is
below `2^53`, `totalCombinations` equals `N^5` exactly, whichever way `pow` rounds; for
`N = 257` it equals 1,121,154,893,057. -/
theorem count_identity (roundUp : Nat → Bool) (N : Nat) (h : N ^ 5 < 9007199254740992) :
    totalCombinations roundUp N = some ((N ^ 5 : Nat) : Int) ∧
      totalCombinations roundUp 257 = some 1121154893057 := by
  have key : ∀ M : Nat, M ^ 5 < 9007199254740992 →
      totalCombinations roundUp M = some ((M ^ 5 : Nat) : Int) := by
    intro M hM
    have hM1 : M < 9007199254740992 := by
      rcases Nat.eq_zero_or_pos M with h0 | h0
      · omega
      · exact lt_of_le_of_lt (Nat.le_self_pow (by decide) M) hM
    have h63 : M ^ 5 < 9223372036854775808 := by omega
    simp only [totalCombinations, roundToDouble_of_lt M hM1, powFive_of_lt roundUp M hM, h63,
      if_true]
  exact ⟨key N h, key 257 (by decide)⟩

/-- Witness of C7 (amended) at `N = 257`. -/
theorem count_identity_witness :
    257 ^ 5 < 9007199254740992 ∧
      totalCombinations (fun _ => true) 257 = some ((257 ^ 5 : Nat) : Int) :=
  ⟨by decide, (count_identity (fun _ => true) 257 (by decide)).1⟩

/-- C8 (progress batching). A worker that has examined the first `n` tuples of its loop
nest has `iterations = n`, has called `UpdateRollingResultsCount` exactly
`floor(n / 10,000,000)` times, each time with the argument 10,000,000, and (no other
thread touching the counter) has raised the shared counter by
`10,000,000 * floor(n / 10,000,000)`. The whole loop nest is the case where `n` is the
number of tuples of the range, and the final `AppendResults` adds nothing to the counter:
a worker that returns has raised it by `10,000,000 * floor(total / 10,000,000)`. -/
theorem progress_batching (p : PhysicsParams) (vals : List ℚ) (t : ThreadIndexes)
    (shared : ThreadSafeResults) (n : Nat) (hn : n ≤ (loopTuples t vals.length).length) :
    (afterTuples p vals ((loopTuples t vals.length).take n)
        (WorkerLocal.initial, shared)).1.iterations = (n : Int) ∧
      (afterTuples p vals ((loopTuples t vals.length).take n)
        (WorkerLocal.initial, shared)).1.updateCalls =
          List.replicate (n / 10000000) 10000000 ∧
      (afterTuples p vals ((loopTuples t vals.length).take n)
        (WorkerLocal.initial, shared)).2.rollingResultsCount =
          shared.rollingResultsCount + 10000000 * ((n / 10000000 : Nat) : Int) ∧
      workerLoops p t vals (WorkerLocal.initial, shared) =
        afterTuples p vals (loopTuples t vals.length) (WorkerLocal.initial, shared) ∧
      ∀ s1, calculateResistorCombinations p t vals shared = some s1 →
        s1.rollingResultsCount = shared.rollingResultsCount +
          10000000 * (((loopTuples t vals.length).length / 10000000 : Nat) : Int) := by
  have hinv := progressInv_afterTuples p vals shared.rollingResultsCount
    ((loopTuples t vals.length).take n) 0 _ (progressInv_initial shared)
  rw [List.length_take, Nat.min_eq_left hn, Nat.zero_add] at hinv
  refine ⟨hinv.1, hinv.2.1, hinv.2.2, workerLoops_eq_afterTuples p t vals _, ?_⟩
  intro s1 hs1
  have hall := progressInv_afterTuples p vals shared.rollingResultsCount
    (loopTuples t vals.length) 0 _ (progressInv_initial shared)
  rw [Nat.zero_add] at hall
  simp only [calculateResistorCombinations, workerRun] at hs1
  split_ifs at hs1 with hu
  · simp at hs1
  · simp only [Option.map_some', Option.some.injEq] at hs1
    rw [← hs1, AppendResults_count, workerLoops_eq_afterTuples]
    exact hall.2.2

/-- C10 (`AppendResults`). After `AppendResults(b)` the stored results are the previous
ones followed by `b`, in order; an empty batch leaves the whole store unchanged; the
iteration counter is never changed. -/
theorem appendResults_spec (s : ThreadSafeResults) (b : List Result) :
    (s.AppendResults b).results = s.results ++ b ∧
      s.AppendResults [] = s ∧
      (s.AppendResults b).rollingResultsCount = s.rollingResultsCount :=
  ⟨AppendResults_results s b, rfl, AppendResults_count s b⟩

/-- C9 (monotonic progress) fails on the code at the launch of a run: the store
`ThreadSafeResults sharedResults;` is a state of every run and its counter holds the
indeterminate value its storage held, which nothing sets to zero; with the value `2^62`
in that storage the counter of a run over 257 values and 24 workers already exceeds
`257^5 + 10,000,000`. (Each step leaves the counter unchanged or larger, see
`workerStep_count_le`, and the counter stays within `N^5` of its value at the launch, see
`counter_bounds_from_launch`.) -/
theorem monotonic_progress_uninitialised_counter :
    (∀ (p : PhysicsParams) (vals : List ℚ) (W : Nat) (c0 : Int),
        Reachable p vals W c0 (initialSystem vals.length W c0) ∧
          (initialSystem vals.length W c0).sharedResults.GetRollingResultsCount = c0) ∧
      (initialSystem 257 24 4611686018427387904).sharedResults.GetRollingResultsCount >
        257 ^ 5 + 10000000 := by
  refine ⟨fun p vals W c0 => ⟨Reachable.launch, rfl⟩, ?_⟩
  show (4611686018427387904 : Int) > 257 ^ 5 + 10000000
  norm_num

/-! ## Draining the store -/

theorem appendAll_results (batches : List (List Result)) :
    ∀ s : ThreadSafeResults, (appendAll s batches).results = s.results ++ batches.flatten := by
  induction batches with
  | nil => intro s; simp [appendAll]
  | cons b bs ih =>
    intro s
    have h := ih (s.AppendResults b)
    simp only [appendAll, List.foldl_cons] at h ⊢
    rw [h, AppendResults_results, List.flatten_cons, List.append_assoc]

theorem appendAll_count (batches : List (List Result)) :
    ∀ s : ThreadSafeResults,
      (appendAll s batches).rollingResultsCount = s.rollingResultsCount := by
  induction batches with
  | nil => intro s; rfl
  | cons b bs ih =>
    intro s
    have h := ih (s.AppendResults b)
    simp only [appendAll, List.foldl_cons] at h ⊢
    rw [h, AppendResults_count]

/-- C11 (`TransferResults`). The output vector becomes exactly the stored results, the
store's result list is left empty and its counter unchanged, so a second drain yields the
empty vector; the results drained after a sequence of `AppendResults` calls on the store
constructed in `main`, or on a store just drained, are the batches of those calls in the
order of the calls. -/
theorem transferResults_spec (s : ThreadSafeResults) (batches : List (List Result))
    (indeterminate : Int) :
    s.TransferResults.1 = s.results ∧
      s.TransferResults.2.results = [] ∧
      s.TransferResults.2.rollingResultsCount = s.rollingResultsCount ∧
      s.TransferResults.2.TransferResults.1 = [] ∧
      (appendAll (ThreadSafeResults.defaultConstructed indeterminate) batches).TransferResults.1
        = batches.flatten ∧
      (appendAll s.TransferResults.2 batches).TransferResults.1 = batches.flatten ∧
      (appendAll s batches).TransferResults.2.rollingResultsCount = s.rollingResultsCount := by
  refine ⟨rfl, rfl, rfl, rfl, ?_, ?_, ?_⟩
  · simp [ThreadSafeResults.TransferResults, appendAll_results,
      ThreadSafeResults.defaultConstructed]
  · simp [ThreadSafeResults.TransferResults, appendAll_results]
  · simp [ThreadSafeResults.TransferResults, appendAll_count]

/-- C19 (initial store state) fails on the code for the counter: the store
`ThreadSafeResults sharedResults;` holds no results, so a drain before any append yields
the empty vector, but `GetRollingResultsCount` before any update returns the indeterminate
value found in the storage of `rollingResultsCount`, here the fill pattern
`0xCCCCCCCCCCCCCCCC` read as a `long long`, not 0. -/
theorem initial_store_uninitialised_counter :
    (∀ c : Int, (ThreadSafeResults.defaultConstructed c).GetRollingResultsCount = c ∧
        (ThreadSafeResults.defaultConstructed c).TransferResults.1 = []) ∧
      (ThreadSafeResults.defaultConstructed (-3689348814741910324)).GetRollingResultsCount
        ≠ 0 := by
  refine ⟨fun c => ⟨rfl, rfl⟩, ?_⟩
  show (-3689348814741910324 : Int) ≠ 0
  decide

/-- C14 (example scenario). Under the inputs of `main`, the tuple `R = 1000`, `R1 = 1000`,
`R2 = 15000`, `R3 = 2000`, `R4 = 91000` has all four currents in `[1e-7, 0.1]`, with
`current00 = 0.0015`; its state-00 output voltage is `25/6` and its state-00 relative
voltage error is `26/99`, above `0.18`. The loop body leaves at the first voltage-error
check: the four currents and `voltageError00` of `tempResult` are written, the other three
errors are not, and nothing is stored. -/
theorem example_scenario :
    (∀ s, mainInputs.minimumCurrent ≤ codeCurrent mainInputs 1000 1000 15000 2000 91000 s ∧
        codeCurrent mainInputs 1000 1000 15000 2000 91000 s ≤ mainInputs.maximumCurrent) ∧
      codeCurrent mainInputs 1000 1000 15000 2000 91000 .s00 = 5 / 2 / (1000 + 2000 / 3) ∧
      codeCurrent mainInputs 1000 1000 15000 2000 91000 .s00 = 15 / 10000 ∧
      codeVoltage mainInputs 1000 1000 15000 2000 91000 .s00 = 25 / 6 ∧
      codeVoltageError mainInputs 1000 1000 15000 2000 91000 .s00 = 26 / 99 ∧
      mainInputs.allowableError < 26 / 99 ∧
      (∀ t0 : Result, evaluateTuple mainInputs 1000 1000 15000 2000 91000 t0 =
        ({ t0 with R := 1000, R1 := 1000, R2 := 15000, R3 := 2000, R4 := 91000,
                   currentState00 := codeCurrent mainInputs 1000 1000 15000 2000 91000 .s00,
                   currentState01 := codeCurrent mainInputs 1000 1000 15000 2000 91000 .s01,
                   currentState10 := codeCurrent mainInputs 1000 1000 15000 2000 91000 .s10,
                   currentState11 := codeCurrent mainInputs 1000 1000 15000 2000 91000 .s11,
                   voltageError00 := 26 / 99 }, false)) ∧
      ∀ w : WorkerLocal × ThreadSafeResults,
        (tupleStep mainInputs 1000 1000 15000 2000 91000 w).1.localResults =
            w.1.localResults ∧
          (tupleStep mainInputs 1000 1000 15000 2000 91000 w).2.results = w.2.results := by
  have hc : ∀ s, mainInputs.minimumCurrent ≤ codeCurrent mainInputs 1000 1000 15000 2000 91000 s ∧
      codeCurrent mainInputs 1000 1000 15000 2000 91000 s ≤ mainInputs.maximumCurrent := by
    intro s
    cases s <;> norm_num [codeCurrent, mainInputs]
  have he : codeVoltageError mainInputs 1000 1000 15000 2000 91000 .s00 = 26 / 99 := by
    norm_num [codeVoltageError, codeVoltage, mainInputs, target, abs_of_neg]
  have hrej : ∀ s, currentRejected mainInputs
      (codeCurrent mainInputs 1000 1000 15000 2000 91000 s) = false := by
    intro s
    have := hc s
    simp only [currentRejected, Bool.or_eq_false_iff, decide_eq_false_iff_not, not_lt, gt_iff_lt]
    exact this
  have hrejE : errorRejected mainInputs (26 / 99) = true := by
    simp only [errorRejected, decide_eq_true_eq, mainInputs]
    norm_num
  have hev : ∀ t0 : Result, evaluateTuple mainInputs 1000 1000 15000 2000 91000 t0 =
      ({ t0 with R := 1000, R1 := 1000, R2 := 15000, R3 := 2000, R4 := 91000,
                 currentState00 := codeCurrent mainInputs 1000 1000 15000 2000 91000 .s00,
                 currentState01 := codeCurrent mainInputs 1000 1000 15000 2000 91000 .s01,
                 currentState10 := codeCurrent mainInputs 1000 1000 15000 2000 91000 .s10,
                 currentState11 := codeCurrent mainInputs 1000 1000 15000 2000 91000 .s11,
                 voltageError00 := 26 / 99 }, false) := by
    intro t0
    simp only [evaluateTuple, hrej, he, hrejE, Bool.false_eq_true, if_false, if_true]
  refine ⟨hc, ?_, ?_, ?_, he, ?_, hev, ?_⟩
  · norm_num [codeCurrent, mainInputs]
  · norm_num [codeCurrent, mainInputs]
  · norm_num [codeVoltage, mainInputs]
  · norm_num [mainInputs]
  · intro w
    refine ⟨?_, tupleStep_results _ _ _ _ _ _ w⟩
    simp only [tupleStep, hev, Bool.false_eq_true, if_false]

/-! ## Block sizes and small value sets -/

theorem length_rangeIndices_blockOf_succ (N k b r i : Nat) (hNs : N < sizeModulus)
    (hsum : (k + 2) * b + r = N) (hi : i < k) :
    (rangeIndices (blockOf b (i + 1))).length = b := by
  have h1 : (i + 2) * b ≤ (k + 2) * b := Nat.mul_le_mul_right b (by omega)
  rw [rangeIndices_blockOf_succ b i (by omega), List.length_range']

theorem map_length_threadIndexes (N k : Nat) (hN : 0 < N) (hNs : N < sizeModulus) :
    (threadIndexes N (k + 2)).map (fun t => (rangeIndices t).length) =
      (N / (k + 2) + 1) ::
        (List.replicate k (N / (k + 2)) ++ [N / (k + 2) + N % (k + 2) - 1]) := by
  have hr : N % (k + 2) < k + 2 := Nat.mod_lt _ (by omega)
  have hdm : (k + 2) * (N / (k + 2)) + N % (k + 2) = N := Nat.div_add_mod N (k + 2)
  have hb : N / (k + 2) ≤ N := Nat.div_le_self _ _
  have e0 : N % (k + 2) / (k + 2) = 0 := Nat.div_eq_of_lt hr
  have e1 : (N / (k + 2) + N % (k + 2) / (k + 2)) % sizeModulus = N / (k + 2) := by
    rw [e0, Nat.add_zero, Nat.mod_eq_of_lt (by omega)]
  have e2 : N % (k + 2) % (k + 2) = N % (k + 2) := Nat.mod_eq_of_lt hr
  have h1 : (k + 2) * (N / (k + 2)) = (k + 1) * (N / (k + 2)) + N / (k + 2) := by ring
  rw [threadIndexes_succ N (k + 1), e1, e2, List.range_succ_eq_map]
  simp only [List.map_cons, List.map_append, List.map_map, List.map_nil, List.cons_append]
  rw [rangeIndices_blockOf_zero _ (by omega), List.length_range',
    rangeIndices_bumpLast_last N k _ _ hN hNs hdm, List.length_range']
  congr 1
  congr 1
  · rw [List.eq_replicate_iff]
    refine ⟨by simp, ?_⟩
    intro x hx
    simp only [List.mem_map, List.mem_range, Function.comp_apply] at hx
    obtain ⟨i, hi, rfl⟩ := hx
    exact length_rangeIndices_blockOf_succ N k _ _ i hNs hdm hi
  · congr 1
    omega

theorem runWorkers_undefined (p : PhysicsParams) (vals : List ℚ) (order : List ThreadIndexes) :
    ∀ s : ThreadSafeResults, (∃ t ∈ order, workerUndefined t vals = true) →
      runWorkers p vals order s = none := by
  induction order with
  | nil => intro s h; obtain ⟨t, ht, _⟩ := h; simp at ht
  | cons t rest ih =>
    intro s h
    by_cases hu : workerUndefined t vals = true
    · simp [runWorkers, calculateResistorCombinations, workerRun, hu]
    · obtain ⟨u, hu1, hu2⟩ := h
      have hrest : ∃ t ∈ rest, workerUndefined t vals = true := by
        rcases List.mem_cons.mp hu1 with h1 | h1
        · subst h1; exact absurd hu2 hu
        · exact ⟨u, h1, hu2⟩
      simp only [runWorkers]
      split
      · rfl
      · exact ih _ hrest

theorem main_eq_none (inputs : PhysicsParams) (W : Nat) (c : Int) (r : Nat → Bool)
    (hW : 0 < W)
    (hn : runWorkers inputs (buildResistorValues inputs)
      (threadIndexes (buildResistorValues inputs).length W)
      (ThreadSafeResults.defaultConstructed c) = none) : main inputs W c r = none := by
  unfold main
  rw [if_neg (by omega)]
  simp only [hn]

theorem main_empty_value_set (inputs : PhysicsParams) (c : Int) (r : Nat → Bool)
    (h : buildResistorValues inputs = []) : main inputs 24 c r = none := by
  apply main_eq_none inputs 24 c r (by decide)
  rw [h]
  exact runWorkers_undefined inputs [] _ _ ⟨⟨1, 18446744073709551615⟩, by decide, by decide⟩

/-- C13 (fewer values than workers) fails on the code for `N = 0`, the value set built
when all three tolerance flags are off. With 24 workers the ranges are `[0,0]`, 22 times
`[1,0]`, and `[1, 2^64 - 1]`: the first covers index 0 and the last is not empty, because
`remainder - 1` wraps around; with one worker the single range is `[0, 2^64 - 1]`. The
worker of such a range has no defined result, and `main` with all flags off does not
return. For `0 < N < W` the claim holds on the code: the ranges enumerate `0, ..., N-1`,
each index once, and no other index. -/
theorem fewer_values_than_workers_empty_value_set :
    threadIndexes 0 24 =
        ⟨0, 0⟩ :: (List.replicate 22 ⟨1, 0⟩ ++ [⟨1, 18446744073709551615⟩]) ∧
      threadIndexes 0 1 = [⟨0, 18446744073709551615⟩] ∧
      (threadIndexes 0 24).countP (covers 0) = 1 ∧
      (threadIndexes 0 24).countP (covers 5) = 1 ∧
      (threadIndexes 0 1).countP (covers 0) = 1 ∧
      buildResistorValues
        { mainInputs with
          use5PercentResistors := false
          use1PercentResistors := false
          use01PercentResistors := false } = [] ∧
      workerUndefined ⟨1, 18446744073709551615⟩ [] = true ∧
      workerUndefined ⟨0, 18446744073709551615⟩ [] = true ∧
      (∀ (c : Int) (r : Nat → Bool),
        main
          { mainInputs with
            use5PercentResistors := false
            use1PercentResistors := false
            use01PercentResistors := false } 24 c r = none) ∧
      (∀ (N W : Nat), 0 < N → N < W → N < sizeModulus →
        (threadIndexes N W).length = W ∧
          (threadIndexes N W).flatMap rangeIndices = List.range N ∧
          ∀ x, (threadIndexes N W).countP (covers x) = if x < N then 1 else 0) := by
  refine ⟨by decide, by decide, by decide, by decide, by decide, rfl, by decide, by decide,
    fun c r => main_empty_value_set _ c r rfl, ?_⟩
  intro N W hN hNW hNs
  have hW : 0 < W := by omega
  refine ⟨length_threadIndexes N W hW, flatMap_rangeIndices_threadIndexes N W hN hW hNs, ?_⟩
  intro x
  rw [countP_covers_eq_count, flatMap_rangeIndices_threadIndexes N W hN hW hNs, count_range]

/-- C16, as stated, fails: for `N = 257` and `W = 24` the base block is
`floor(257 / 24) = 10` and `257 mod 24 = 17`, but the first range `[0,10]` holds 11
indices, not 10, and the final range `[231,256]` holds 26, not 27. -/
theorem block_sizes_counterexample :
    (threadIndexes 257 24).map (fun t => (rangeIndices t).length) =
        11 :: (List.replicate 22 10 ++ [26]) ∧
      257 / 24 = 10 ∧ 257 / 24 + 257 % 24 = 27 := by
  decide

/-- C16, amended (block sizes). For `N > 0` and at least two workers, the first range
holds `floor(N / W) + 1` indices, every range strictly between the first and the final one
holds `floor(N / W)`, and the final range holds `floor(N / W) + (N mod W) - 1`; with a
single worker the one range holds all `N` indices. -/
theorem block_sizes (N W : Nat) (hN : 0 < N) (hW : 2 ≤ W) (hNs : N < sizeModulus) :
    (threadIndexes N W).map (fun t => (rangeIndices t).length) =
        (N / W + 1) :: (List.replicate (W - 2) (N / W) ++ [N / W + N % W - 1]) ∧
      (threadIndexes N 1).map (fun t => (rangeIndices t).length) = [N] := by
  constructor
  · obtain ⟨k, rfl⟩ : ∃ k, W = k + 2 := ⟨W - 2, by omega⟩
    exact map_length_threadIndexes N k hN hNs
  · rw [threadIndexes_succ N 0]
    simp only [List.range_zero, List.map_nil, List.nil_append, List.map_cons, Nat.zero_add]
    rw [rangeIndices_bumpLast_single N hN hNs, List.length_range]

/-- Witness of C16 (amended) at `N = 257`, `W = 24`. -/
theorem block_sizes_witness :
    (0 < 257 ∧ 2 ≤ 24 ∧ 257 < sizeModulus) ∧
      (threadIndexes 257 24).map (fun t => (rangeIndices t).length) =
        (257 / 24 + 1) :: (List.replicate (24 - 2) (257 / 24) ++ [257 / 24 + 257 % 24 - 1]) :=
  ⟨⟨by decide, by decide, by decide⟩,
    (block_sizes 257 24 (by decide) (by decide) (by decide)).1⟩

/-! ## Work done -/

theorem length_loopTuples (t : ThreadIndexes) (N : Nat) :
    (loopTuples t N).length = (t.endIndex + 1 - t.startIndex) * N ^ 4 := by
  simp only [loopTuples_eq, List.length_flatMap, Function.comp_def, length_rowTuples,
    List.map_const', List.sum_replicate, smul_eq_mul, rangeIndices, List.length_range']

theorem tuplesExamined_eq (p : PhysicsParams) (t : ThreadIndexes) (vals : List ℚ)
    (shared : ThreadSafeResults) (h : workerUndefined t vals = false) :
    tuplesExamined p t vals shared =
      some (((t.endIndex + 1 - t.startIndex) * vals.length ^ 4 : Nat) : Int) := by
  have hall := progressInv_afterTuples p vals shared.rollingResultsCount
    (loopTuples t vals.length) 0 _ (progressInv_initial shared)
  rw [Nat.zero_add, length_loopTuples] at hall
  simp only [tuplesExamined, workerRun, h, Bool.false_eq_true, if_false, Option.map_some',
    workerLoops_eq_afterTuples, hall.1]

theorem sum_map_mul_const (l : List ThreadIndexes) (f : ThreadIndexes → Nat) (K : Nat) :
    (l.map (fun u => f u * K)).sum = (l.map f).sum * K := by
  induction l with
  | nil => simp
  | cons a l ih => simp only [List.map_cons, List.sum_cons, ih]; ring

theorem sum_rangeWork (N W : Nat) (hN : 0 < N) (hW : 0 < W) (hNs : N < sizeModulus) :
    ((threadIndexes N W).map (fun u => (u.endIndex + 1 - u.startIndex) * N ^ 4)).sum =
      N ^ 5 := by
  have h := congrArg List.length (flatMap_rangeIndices_threadIndexes N W hN hW hNs)
  simp only [List.length_flatMap, Function.comp_def, rangeIndices, List.length_range',
    List.length_range] at h
  rw [sum_map_mul_const, h]
  ring

/-- C17, as stated, fails: with 1553 values and one worker, the worker examines
`1553^5 = 9033525579302993` tuples, but `totalCombinations` is `9033525579302994` or
`9033525579302992`, whichever way `pow` rounds. Moreover a worker assigned the empty range
`[5,2]` does not return: its `reserve` call is asked for `2^64 - 2` elements and throws. -/
theorem work_done_counterexample :
    threadIndexes 1553 1 = [⟨0, 1552⟩] ∧
      tuplesExamined mainInputs ⟨0, 1552⟩ (List.replicate 1553 1000)
        (ThreadSafeResults.defaultConstructed 0) = some 9033525579302993 ∧
      totalCombinations (fun _ => true) 1553 = some 9033525579302994 ∧
      totalCombinations (fun _ => false) 1553 = some 9033525579302992 ∧
      reserveFails ⟨5, 2⟩ = true ∧
      tuplesExamined mainInputs ⟨5, 2⟩ (List.replicate 1553 1000)
        (ThreadSafeResults.defaultConstructed 0) = none := by
  refine ⟨by decide, ?_, by decide, by decide, by decide, ?_⟩
  · rw [tuplesExamined_eq mainInputs ⟨0, 1552⟩ (List.replicate 1553 1000) _
      (by simp only [workerUndefined, reserveFails, vectorMaxSize, List.length_replicate,
            sizeModulus]; decide)]
    simp only [List.length_replicate]
    norm_num
  · have hu : workerUndefined ⟨5, 2⟩ (List.replicate 1553 (1000 : ℚ)) = true := by
      simp only [workerUndefined, reserveFails, vectorMaxSize, List.length_replicate,
        sizeModulus]
      decide
    simp only [tuplesExamined, workerRun, hu, if_true, Option.map_none']

/-- C17, amended (work done). For a value set of length `N > 0` that a
`std::vector<Result>` can hold: a worker assigned `[s, e]` with `s <= e < N` returns after
examining exactly `(e - s + 1) * N^4` tuples; a worker assigned an empty range with
`s = e + 1`, the only empty ranges the partitioner produces, returns having examined none
(for any empty range it examines none, and returns unless its `reserve` call throws); over
the partitioner's ranges for `W > 0` workers every worker returns and the numbers of
tuples examined sum to exactly `N^5`; this is the value of `totalCombinations` whenever
`N^5 < 2^53`. -/
theorem work_done (p : PhysicsParams) (vals : List ℚ) (shared : ThreadSafeResults)
    (t : ThreadIndexes) (W : Nat) (hN : 0 < vals.length)
    (hmax : vals.length ≤ vectorMaxSize) (hW : 0 < W) :
    (t.startIndex ≤ t.endIndex → t.endIndex < vals.length →
        tuplesExamined p t vals shared =
          some (((t.endIndex - t.startIndex + 1) * vals.length ^ 4 : Nat) : Int)) ∧
      (t.endIndex + 1 = t.startIndex → tuplesExamined p t vals shared = some 0) ∧
      (t.endIndex < t.startIndex →
        tuplesExamined p t vals shared = if reserveFails t then none else some 0) ∧
      (∀ u ∈ threadIndexes vals.length W,
        u.startIndex ≤ u.endIndex + 1 ∧
          tuplesExamined p u vals shared =
            some (((u.endIndex + 1 - u.startIndex) * vals.length ^ 4 : Nat) : Int)) ∧
      ((threadIndexes vals.length W).map
        (fun u => (u.endIndex + 1 - u.startIndex) * vals.length ^ 4)).sum = vals.length ^ 5 ∧
      (vals.length ^ 5 < 9007199254740992 → ∀ roundUp : Nat → Bool,
        totalCombinations roundUp vals.length = some ((vals.length ^ 5 : Nat) : Int)) := by
  have hM : sizeModulus = 18446744073709551616 := rfl
  have hv : vectorMaxSize = 354745078340568300 := by decide
  have hNs : vals.length < sizeModulus := by omega
  have hempty : t.endIndex < t.startIndex →
      tuplesExamined p t vals shared = if reserveFails t then none else some 0 := by
    intro hlt
    by_cases hr : reserveFails t = true
    · have hu : workerUndefined t vals = true := by simp [workerUndefined, hr]
      simp only [tuplesExamined, workerRun, hu, hr, if_true, Option.map_none']
    · have hr1 : reserveFails t = false := by simpa using hr
      have hu : workerUndefined t vals = false := by
        simp [workerUndefined, hr1, Nat.not_le.mpr hlt]
      rw [tuplesExamined_eq p t vals shared hu]
      have e : t.endIndex + 1 - t.startIndex = 0 := by omega
      rw [e, Nat.zero_mul]
      simp [hr1]
  refine ⟨?_, ?_, hempty, ?_, sum_rangeWork _ W hN hW hNs, ?_⟩
  · intro hse he
    have hr := reserveFails_of_le t vals.length hmax (by omega) (by omega)
    have hu : workerUndefined t vals = false := by
      simp only [workerUndefined, hr, Bool.false_or, Bool.and_eq_false_imp,
        decide_eq_true_eq, Bool.or_eq_false_iff, decide_eq_false_iff_not,
        Bool.and_eq_false_iff]
      intro _
      exact ⟨by omega, fun _ => by omega⟩
    rw [tuplesExamined_eq p t vals shared hu]
    have e : t.endIndex + 1 - t.startIndex = t.endIndex - t.startIndex + 1 := by omega
    rw [e]
  · intro he
    have hr := reserveFails_of_le t vals.length hmax (by omega) (by omega)
    rw [hempty (by omega), hr]
    rfl
  · intro u hu
    exact ⟨startIndex_le_of_mem _ W hN hW hNs u hu,
      tuplesExamined_eq p u vals shared
        (workerUndefined_of_mem vals.length W hN hW hNs hmax vals rfl u hu)⟩
  · intro h roundUp
    have hM1 : vals.length < 9007199254740992 :=
      lt_of_le_of_lt (Nat.le_self_pow (by decide) _) h
    have h63 : vals.length ^ 5 < 9223372036854775808 := by omega
    simp only [totalCombinations, roundToDouble_of_lt _ hM1, powFive_of_lt roundUp _ h,
      h63, if_true]

/-! ## The value set -/

theorem decade5Percent_bounds : ∀ d ∈ decade5Percent, 10 ≤ d ∧ d ≤ 97.6 := by
  simp only [decade5Percent, List.forall_mem_cons, List.not_mem_nil, false_implies,
    implies_true, and_true]
  norm_num

theorem decade1Percent_bounds : ∀ d ∈ decade1Percent, 10 ≤ d ∧ d ≤ 97.6 := by
  simp only [decade1Percent, List.forall_mem_cons, List.not_mem_nil, false_implies,
    implies_true, and_true]
  norm_num

theorem decade01Percent_bounds : ∀ d ∈ decade01Percent, 10 ≤ d ∧ d ≤ 97.6 := by
  simp only [decade01Percent, List.forall_mem_cons, List.not_mem_nil, false_implies,
    implies_true, and_true]
  norm_num

theorem buildResistorValues_eq (p : PhysicsParams) :
    buildResistorValues p =
      (if p.use5PercentResistors then decade5Percent.map (fun d => d * 1000) else []) ++
        (if p.use1PercentResistors then decade1Percent.map (fun d => d * 100) else []) ++
        (if p.use01PercentResistors then decade01Percent.map (fun d => d * 10) else []) := by
  unfold buildResistorValues
  norm_num

theorem buildResistorValues_pos (p : PhysicsParams) :
    ∀ v ∈ buildResistorValues p, 0 < v := by
  intro v hv
  rw [buildResistorValues_eq, List.mem_append, List.mem_append] at hv
  rcases hv with (hv | hv) | hv
  · split_ifs at hv
    · obtain ⟨d, hd, rfl⟩ := List.mem_map.mp hv
      have := (decade5Percent_bounds d hd).1
      linarith
    · simp at hv
  · split_ifs at hv
    · obtain ⟨d, hd, rfl⟩ := List.mem_map.mp hv
      have := (decade1Percent_bounds d hd).1
      linarith
    · simp at hv
  · split_ifs at hv
    · obtain ⟨d, hd, rfl⟩ := List.mem_map.mp hv
      have := (decade01Percent_bounds d hd).1
      linarith
    · simp at hv

theorem length_decade5Percent : decade5Percent.length = 24 := rfl

theorem length_decade1Percent : decade1Percent.length = 96 := rfl

theorem length_decade01Percent : decade01Percent.length = 137 := rfl

theorem length_buildResistorValues_mainInputs :
    (buildResistorValues mainInputs).length = 257 := by
  simp only [buildResistorValues, mainInputs, if_true, List.length_append, List.length_map,
    length_decade5Percent, length_decade1Percent, length_decade01Percent]

theorem denominators_ne_zero (R a b : ℚ) (hR : 0 < R) (ha : 0 < a) (hb : 0 < b) :
    1 / a + 1 / b ≠ 0 ∧ R + 1 / (1 / a + 1 / b) ≠ 0 ∧ R * (1 / a + 1 / b) ≠ 0 := by
  have h1 : 0 < 1 / a + 1 / b := by positivity
  have h2 : 0 < R + 1 / (1 / a + 1 / b) := by positivity
  have h3 : 0 < R * (1 / a + 1 / b) := by positivity
  exact ⟨ne_of_gt h1, ne_of_gt h2, ne_of_gt h3⟩

/-- C20 (no division by zero on the built value set). For every combination of the three
tolerance flags, `resistorValues` is made of the decade values, all between 10.0 and 97.6,
times 1000, 100 and 10 for the 5%, 1% and 0.1% classes; every element is strictly positive;
and for all `R`, `a`, `b` drawn from it the denominators `1/a + 1/b`,
`R + 1/(1/a + 1/b)` and `R * (1/a + 1/b)` of the worker's formulas are non-zero. With all
three flags on the value set has 257 elements. -/
theorem no_division_by_zero (p : PhysicsParams) :
    buildResistorValues p =
        (if p.use5PercentResistors then decade5Percent.map (fun d => d * 1000) else []) ++
          (if p.use1PercentResistors then decade1Percent.map (fun d => d * 100) else []) ++
          (if p.use01PercentResistors then decade01Percent.map (fun d => d * 10) else []) ∧
      (∀ d ∈ decade5Percent ++ decade1Percent ++ decade01Percent, 10 ≤ d ∧ d ≤ 97.6) ∧
      (∀ v ∈ buildResistorValues p, 0 < v) ∧
      (∀ R ∈ buildResistorValues p, ∀ a ∈ buildResistorValues p,
        ∀ b ∈ buildResistorValues p,
          1 / a + 1 / b ≠ 0 ∧ R + 1 / (1 / a + 1 / b) ≠ 0 ∧ R * (1 / a + 1 / b) ≠ 0) ∧
      (buildResistorValues mainInputs).length = 257 := by
  refine ⟨buildResistorValues_eq p, ?_, buildResistorValues_pos p, ?_,
    length_buildResistorValues_mainInputs⟩
  · intro d hd
    rw [List.mem_append, List.mem_append] at hd
    rcases hd with (hd | hd) | hd
    · exact decade5Percent_bounds d hd
    · exact decade1Percent_bounds d hd
    · exact decade01Percent_bounds d hd
  · intro R hR a ha b hb
    exact denominators_ne_zero R a b (buildResistorValues_pos p R hR)
      (buildResistorValues_pos p a ha) (buildResistorValues_pos p b hb)

/-! ## The input check of `main` -/

theorem main_of_not_pos (inputs : PhysicsParams) (W : Nat) (c : Int) (r : Nat → Bool)
    (hW : ¬ 0 < W) :
    main inputs W c r =
      some { status := 1, events := [MainEvent.reportWorkerThreads], total := none,
             finalResults := none } := by
  unfold main
  rw [if_pos (by omega)]

theorem main_of_pos (inputs : PhysicsParams) (W : Nat) (c : Int) (r : Nat → Bool)
    (hW : 0 < W) (o : MainOutcome) (h : main inputs W c r = some o) :
    o.status = 0 ∧ MainEvent.reportWorkerThreads ∉ o.events ∧
      o.events.head? = some MainEvent.buildValueSet ∧ o.finalResults.isSome = true := by
  unfold main at h
  rw [if_neg (by omega)] at h
  simp only at h
  split at h
  · simp at h
  · simp only [Option.some.injEq] at h
    subst h
    refine ⟨rfl, ?_, rfl, rfl⟩
    simp

theorem main_mainInputs_returns (W : Nat) (c : Int) (r : Nat → Bool) (hW : 0 < W) :
    ∃ o, main mainInputs W c r = some o ∧ o.status = 0 := by
  have hlen := length_buildResistorValues_mainInputs
  have hdef : ∀ t ∈ threadIndexes (buildResistorValues mainInputs).length W,
      workerUndefined t (buildResistorValues mainInputs) = false := fun t ht =>
    workerUndefined_of_mem _ W (by rw [hlen]; decide) hW (by rw [hlen]; decide)
      (by rw [hlen]; decide) _ rfl t ht
  obtain ⟨s1, h1, _⟩ := runWorkers_defined mainInputs (buildResistorValues mainInputs) _
    (ThreadSafeResults.defaultConstructed c) hdef
  unfold main
  rw [if_neg (by omega)]
  simp only [h1]
  exact ⟨_, rfl, rfl⟩

/-- C12 (configuration error). With the worker count as an input, `main` returns status 1
if and only if the worker count is not greater than 0; it then has done nothing but report
the error: no value set, no total, no ranges, no store, no monitor, no worker and no
results. For a worker count greater than 0 a run that returns has status 0, has not taken
the error path and starts by building the value set; with the inputs of `main` it does
return. -/
theorem configuration_error (inputs : PhysicsParams) (W : Nat) (c : Int) (r : Nat → Bool) :
    ((∃ o, main inputs W c r = some o ∧ o.status = 1) ↔ ¬ 0 < W) ∧
      (¬ 0 < W → main inputs W c r =
        some { status := 1, events := [MainEvent.reportWorkerThreads], total := none,
               finalResults := none }) ∧
      (0 < W → ∀ o, main inputs W c r = some o →
        o.status = 0 ∧ MainEvent.reportWorkerThreads ∉ o.events ∧
          o.events.head? = some MainEvent.buildValueSet ∧ o.finalResults.isSome = true) ∧
      (0 < W → ∃ o, main mainInputs W c r = some o ∧ o.status = 0) := by
  refine ⟨?_, main_of_not_pos inputs W c r, main_of_pos inputs W c r,
    main_mainInputs_returns W c r⟩
  constructor
  · rintro ⟨o, ho, hs⟩ hW
    have := (main_of_pos inputs W c r hW o ho).1
    omega
  · intro hW
    exact ⟨_, main_of_not_pos inputs W c r hW, rfl⟩

/-! ## Search, stored records and ranking in the arithmetic of the source -/

/-- C2 (search completeness). Whatever the rounding `fl` of the arithmetic (`roundToFloat`
for the `float` of the source, `id` for exact arithmetic): for a value set of length
`N > 0` with positive values and `W > 0` workers, let the workers run to completion in any
order `order` of the partitioner's ranges on the store constructed in `main`. Then every
worker returns, and the vector drained by `TransferResults` is a rearrangement of the list
that holds, for each index tuple of `[0,N)^5` whose values pass the eight checks in that
arithmetic, the candidate result of that tuple, once, and nothing else; the number of
results is the number of feasible index tuples. The list `allTuples N` holds each index
tuple of `[0,N)^5` exactly once. -/
theorem search_completeness (fl : ℚ → ℚ) (p : PhysicsParams) (vals : List ℚ) (W : Nat)
    (order : List ThreadIndexes) (indeterminate : Int)
    (hN : 0 < vals.length) (hmax : vals.length ≤ vectorMaxSize) (hW : 0 < W)
    (_hpos : ∀ v ∈ vals, 0 < v)
    (horder : order.Perm (threadIndexes vals.length W)) :
    (∃ out, drainedResultsRounded fl p vals order
          (ThreadSafeResults.defaultConstructed indeterminate) = some out ∧
        out.Perm (((allTuples vals.length).filter (passesAt fl p vals)).map
          (refRecordAt fl p vals)) ∧
        out.length = ((allTuples vals.length).filter (passesAt fl p vals)).length) ∧
      (allTuples vals.length).Nodup ∧
      ∀ x, x ∈ allTuples vals.length ↔
        x.i < vals.length ∧ x.j < vals.length ∧ x.k < vals.length ∧
          x.l < vals.length ∧ x.m < vals.length := by
  have hv : vectorMaxSize = 354745078340568300 := by decide
  have hM : sizeModulus = 18446744073709551616 := rfl
  have hNs : vals.length < sizeModulus := by omega
  refine ⟨?_, nodup_allTuples _, mem_allTuples _⟩
  have hdef : ∀ t ∈ order, workerUndefined t vals = false := fun t ht =>
    workerUndefined_of_mem vals.length W hN hW hNs hmax vals rfl t (horder.mem_iff.mp ht)
  obtain ⟨s1, h1, h2⟩ := runWorkersRounded_defined fl p vals order
    (ThreadSafeResults.defaultConstructed indeterminate) hdef
  have hperm : (order.flatMap (workerOutputRounded fl p vals)).Perm
      (((allTuples vals.length).filter (passesAt fl p vals)).map (refRecordAt fl p vals)) := by
    have e : (threadIndexes vals.length W).flatMap (workerOutputRounded fl p vals) =
        ((allTuples vals.length).filter (passesAt fl p vals)).map (refRecordAt fl p vals) := by
      rw [flatMap_workerOutputRounded, flatMap_rangeIndices_threadIndexes _ W hN hW hNs,
        allTuples_eq]
    rw [← e]
    exact horder.flatMap_right _
  have hout : s1.TransferResults.1 = order.flatMap (workerOutputRounded fl p vals) := by
    simp [ThreadSafeResults.TransferResults, h2, ThreadSafeResults.defaultConstructed]
  refine ⟨s1.TransferResults.1, ?_, ?_, ?_⟩
  · simp only [drainedResultsRounded, h1, Option.map_some']
  · rw [hout]; exact hperm
  · rw [hout, hperm.length_eq, List.length_map]

/-- Witness of C2 in `float` arithmetic: three values, two workers with the ranges `[0,1]`
and `[2,2]` completing in the reverse order, and inputs under which the tuple of the
indices `(0,1,1,1,1)` passes all eight checks, so that the drained vector is not empty. -/
theorem search_completeness_witness :
    (∃ out, drainedResultsRounded roundToFloat dyadicInputs [1, 2, 2] [⟨2, 2⟩, ⟨0, 1⟩]
          (ThreadSafeResults.defaultConstructed 9) = some out ∧
        out.Perm (((allTuples 3).filter (passesAt roundToFloat dyadicInputs [1, 2, 2])).map
          (refRecordAt roundToFloat dyadicInputs [1, 2, 2])) ∧
        out.length =
          ((allTuples 3).filter (passesAt roundToFloat dyadicInputs [1, 2, 2])).length) ∧
      threadIndexes 3 2 = [⟨0, 1⟩, ⟨2, 2⟩] ∧
      passesAt roundToFloat dyadicInputs [1, 2, 2] ⟨0, 1, 1, 1, 1⟩ = true ∧
      (⟨0, 1, 1, 1, 1⟩ : IndexTuple) ∈ allTuples 3 :=
  ⟨(search_completeness roundToFloat dyadicInputs [1, 2, 2] 2 [⟨2, 2⟩, ⟨0, 1⟩] 9
      (by decide) (by decide) (by decide)
      (by intro v hv; simp at hv; rcases hv with rfl | rfl <;> norm_num)
      (by
        rw [show threadIndexes ([1, 2, 2] : List ℚ).length 2 = [⟨0, 1⟩, ⟨2, 2⟩] from
          by decide]
        exact List.Perm.swap _ _ _)).1,
    by decide,
    decide_eq_true refAccepts_dyadic,
    (mem_allTuples 3 _).mpr ⟨by decide, by decide, by decide, by decide, by decide⟩⟩

/-- C6 (determinism of the stored record). Whatever the rounding `fl` of the arithmetic:
whether a tuple is accepted does not depend on the worker's state, and for an accepted
tuple of positive resistances the loop body appends exactly the record made of the five
resistances, the four currents and the four relative voltage errors of that tuple,
whatever the worker's state `w` before the iteration, in particular whatever earlier
tuples left in the reused `tempResult`; the loop body does not read the worker's range. -/
theorem stored_record_deterministic (fl : ℚ → ℚ) (p : PhysicsParams) (R R1 R2 R3 R4 : ℚ)
    (_hR : 0 < R) (_hR1 : 0 < R1) (_hR2 : 0 < R2) (_hR3 : 0 < R3) (_hR4 : 0 < R4)
    (hacc : refAccepts fl p R R1 R2 R3 R4) (w w1 : WorkerLocal × ThreadSafeResults) :
    (tupleStepRounded fl p R R1 R2 R3 R4 w).1.localResults =
        w.1.localResults ++ [refRecord fl p R R1 R2 R3 R4] ∧
      evaluateTupleRounded fl p R R1 R2 R3 R4 w.1.tempResult =
        (refRecord fl p R R1 R2 R3 R4, true) ∧
      evaluateTupleRounded fl p R R1 R2 R3 R4 w.1.tempResult =
        evaluateTupleRounded fl p R R1 R2 R3 R4 w1.1.tempResult ∧
      ∀ (q : PhysicsParams) (a a1 a2 a3 a4 : ℚ) (t0 t1 : Result),
        (evaluateTupleRounded fl q a a1 a2 a3 a4 t0).2 =
          (evaluateTupleRounded fl q a a1 a2 a3 a4 t1).2 := by
  have h : ∀ t0, evaluateTupleRounded fl p R R1 R2 R3 R4 t0 =
      (refRecord fl p R R1 R2 R3 R4, true) := by
    intro t0
    rcases evaluateTupleRounded_eq fl p R R1 R2 R3 R4 t0 with ⟨_, he⟩ | ⟨ha, _⟩
    · exact he
    · exact absurd hacc ha
  refine ⟨?_, h _, (h _).trans (h _).symm, ?_⟩
  · rw [tupleStepRounded_localResults, if_pos hacc]
  · intro q a a1 a2 a3 a4 t0 t1
    rcases evaluateTupleRounded_eq fl q a a1 a2 a3 a4 t0 with ⟨h0, e0⟩ | ⟨h0, e0⟩ <;>
      rcases evaluateTupleRounded_eq fl q a a1 a2 a3 a4 t1 with ⟨h1, e1⟩ | ⟨h1, e1⟩
    · rw [e0, e1]
    · exact absurd h0 h1
    · exact absurd h1 h0
    · rw [e0, e1]

/-- Witness of C6 in `float` arithmetic: an accepted tuple examined from a state whose
reused `tempResult` holds the value 7 in every field, compared with the initial state. -/
theorem stored_record_deterministic_witness :
    (tupleStepRounded roundToFloat dyadicInputs 1 2 2 2 2 usedWorkerState).1.localResults =
        usedWorkerState.1.localResults ++ [refRecord roundToFloat dyadicInputs 1 2 2 2 2] ∧
      evaluateTupleRounded roundToFloat dyadicInputs 1 2 2 2 2 usedWorkerState.1.tempResult =
        evaluateTupleRounded roundToFloat dyadicInputs 1 2 2 2 2
          (WorkerLocal.initial, ThreadSafeResults.defaultConstructed 0).1.tempResult :=
  ⟨(stored_record_deterministic roundToFloat dyadicInputs 1 2 2 2 2 (by norm_num)
      (by norm_num) (by norm_num) (by norm_num) (by norm_num) refAccepts_dyadic
      usedWorkerState (WorkerLocal.initial, ThreadSafeResults.defaultConstructed 0)).1,
    (stored_record_deterministic roundToFloat dyadicInputs 1 2 2 2 2 (by norm_num)
      (by norm_num) (by norm_num) (by norm_num) (by norm_num) refAccepts_dyadic
      usedWorkerState (WorkerLocal.initial, ThreadSafeResults.defaultConstructed 0)).2.2.1⟩

theorem sorted_stdSort_key (key : Result → ℚ) (l : List Result) :
    List.Sorted (fun a b => key a ≤ key b)
      (stdSort (fun a b => decide (key a < key b)) l) := by
  have e : stdSort (fun a b => decide (key a < key b)) l =
      l.insertionSort (fun a b => key a ≤ key b) := by
    simp only [stdSort, decide_eq_false_iff_not, not_lt]
  rw [e]
  haveI : IsTotal Result (fun a b => key a ≤ key b) := ⟨fun a b => le_total _ _⟩
  haveI : IsTrans Result (fun a b => key a ≤ key b) := ⟨fun a b c hab hbc => le_trans hab hbc⟩
  exact List.sorted_insertionSort _ l

theorem meanVoltageErrorRounded_tieRecordA :
    meanVoltageErrorRounded roundToFloat tieRecordA = 1 / 4 := by
  simp only [meanVoltageErrorRounded, tieRecordA, zeroResult]
  rw [roundToFloat_tie]
  norm_num [roundToFloat_one, roundToFloat_quarter]

theorem meanVoltageErrorRounded_tieRecordB :
    meanVoltageErrorRounded roundToFloat tieRecordB = 1 / 4 := by
  simp only [meanVoltageErrorRounded, tieRecordB, zeroResult]
  norm_num [roundToFloat_one, roundToFloat_quarter]

/-- C5, as stated, fails in the `float` arithmetic of the comparator: for the two records
with voltage errors `(1, 2^-24, 0, 0)` and `(1, 0, 0, 0)` the comparator computes the mean
`0.25` for both, because `1 + 2^-24` rounds to `1`, so the sort leaves them in this order,
while the mean of the four errors of the first, `(1 + 2^-24) / 4`, is larger than that of
the second, `1/4`. -/
theorem ranking_order_counterexample :
    sortedResultsRounded roundToFloat [tieRecordA, tieRecordB] = [tieRecordA, tieRecordB] ∧
      exactMeanError tieRecordB < exactMeanError tieRecordA ∧
      refMeanError roundToFloat tieRecordA = 1 / 4 ∧
      refMeanError roundToFloat tieRecordB = 1 / 4 := by
  refine ⟨?_, ?_, meanVoltageErrorRounded_tieRecordA, meanVoltageErrorRounded_tieRecordB⟩
  · simp [sortedResultsRounded, stdSort, List.insertionSort, List.orderedInsert,
      compareResultsByVoltageErrorRounded, meanVoltageErrorRounded_tieRecordA,
      meanVoltageErrorRounded_tieRecordB]
  · norm_num [exactMeanError, tieRecordA, tieRecordB, zeroResult]

/-- C5, amended (ranking order). Whatever the rounding `fl` of the arithmetic: after the
sort with `compareResultsByVoltageError`, every adjacent pair of `finalResults` (and every
pair of an earlier and a later element) is in ascending order of the mean as the
comparator computes it, `(((e00 + e01) + e10) + e11) / 4` with every operation rounded, and
the sorted vector is a rearrangement of the drained results. In exact arithmetic this mean
is the sum of the four voltage errors divided by 4. -/
theorem ranking_order (fl : ℚ → ℚ) (drained : List Result) :
    List.Chain' (fun a b => refMeanError fl a ≤ refMeanError fl b)
        (sortedResultsRounded fl drained) ∧
      List.Pairwise (fun a b => refMeanError fl a ≤ refMeanError fl b)
        (sortedResultsRounded fl drained) ∧
      (sortedResultsRounded fl drained).Perm drained ∧
      List.Chain' (fun a b => exactMeanError a ≤ exactMeanError b)
        (sortedResultsRounded id drained) := by
  have h : List.Sorted (fun a b => refMeanError fl a ≤ refMeanError fl b)
      (sortedResultsRounded fl drained) := sorted_stdSort_key (refMeanError fl) drained
  have hid : List.Sorted (fun a b => exactMeanError a ≤ exactMeanError b)
      (sortedResultsRounded id drained) := sorted_stdSort_key exactMeanError drained
  exact ⟨List.Pairwise.chain' h, h, perm_stdSort _ drained, List.Pairwise.chain' hid⟩

/-- Witness of C8: the worker of the first range `[0,10]` of `main` (257 values, 24
workers) after 25,000,000 tuples, on a store whose counter held 5: it has called
`UpdateRollingResultsCount` twice, with 10,000,000 each time, and the counter holds
20,000,005. -/
theorem progress_batching_witness :
    (afterTuples mainInputs (buildResistorValues mainInputs)
        ((loopTuples ⟨0, 10⟩ (buildResistorValues mainInputs).length).take 25000000)
        (WorkerLocal.initial, ThreadSafeResults.defaultConstructed 5)).1.updateCalls =
        List.replicate (25000000 / 10000000) 10000000 ∧
      (afterTuples mainInputs (buildResistorValues mainInputs)
        ((loopTuples ⟨0, 10⟩ (buildResistorValues mainInputs).length).take 25000000)
        (WorkerLocal.initial, ThreadSafeResults.defaultConstructed 5)).2.rollingResultsCount =
        (ThreadSafeResults.defaultConstructed 5).rollingResultsCount +
          10000000 * ((25000000 / 10000000 : Nat) : Int) ∧
      List.replicate (25000000 / 10000000) (10000000 : Int) = [10000000, 10000000] :=
  ⟨(progress_batching mainInputs (buildResistorValues mainInputs) ⟨0, 10⟩
      (ThreadSafeResults.defaultConstructed 5) 25000000
      (by rw [length_loopTuples, length_buildResistorValues_mainInputs]; decide)).2.1,
    (progress_batching mainInputs (buildResistorValues mainInputs) ⟨0, 10⟩
      (ThreadSafeResults.defaultConstructed 5) 25000000
      (by rw [length_loopTuples, length_buildResistorValues_mainInputs]; decide)).2.2.1,
    by decide⟩

/-- Witness of C17 (amended): the second worker of `main` (257 values, 24 workers, range
`[11,20]`) and the whole partition. -/
theorem work_done_witness :
    tuplesExamined mainInputs ⟨11, 20⟩ (buildResistorValues mainInputs)
        (ThreadSafeResults.defaultConstructed 5) =
        some (((20 - 11 + 1) * (buildResistorValues mainInputs).length ^ 4 : Nat) : Int) ∧
      ((threadIndexes (buildResistorValues mainInputs).length 24).map
        (fun u => (u.endIndex + 1 - u.startIndex) *
          (buildResistorValues mainInputs).length ^ 4)).sum =
        (buildResistorValues mainInputs).length ^ 5 :=
  by
  have hlen := length_buildResistorValues_mainInputs
  have h0 : 0 < (buildResistorValues mainInputs).length := by rw [hlen]; decide
  have h1 : (buildResistorValues mainInputs).length ≤ vectorMaxSize := by
    rw [hlen]; decide
  have h := work_done mainInputs (buildResistorValues mainInputs)
      (ThreadSafeResults.defaultConstructed 5) ⟨11, 20⟩ 24 h0 h1 (by decide)
  have h2 : (11 : Nat) ≤ 20 := by decide
  have h3 : 20 < (buildResistorValues mainInputs).length := by rw [hlen]; decide
  refine ⟨?_, h.2.2.2.2.1⟩
  have h4 := h.1 h2 h3
  simp only [Nat.reduceSub, Nat.reduceAdd] at h4 ⊢
  exact h4

end BinarySwitchCalculator
